import Mathlib

/-!
Verification of the Polykit monorepo orchestrator core against its
specification.  The Rust sources (polykit-core, polykit-cache) are shallowly
embedded: pure functions become Lean functions over `Nat`-encoded bytes and
`List`-encoded maps, stateful code threads its state explicitly, and fallible
code returns `Except`.  External libraries used by the source (sha2, tar,
zstd, serde, xxhash, petgraph) are embedded through their documented
contracts, as noted at each definition.
-/

/-! ## Bytes, hex and UTF-8 helpers -/

/-- Hex digit character for a value below 16, lowercase as Rust `{:x}`. -/
def hexDigit (n : Nat) : Char :=
  if n < 10 then Char.ofNat (48 + n) else Char.ofNat (87 + n)

/-- Two lowercase hex characters of one byte. -/
def hexByte (b : Nat) : List Char :=
  [hexDigit (b / 16 % 16), hexDigit (b % 16)]

/-- Lowercase hex string of a byte list, as Rust formats a digest with `{:x}`. -/
def bytesToHex (bs : List Nat) : String :=
  String.mk ((bs.map hexByte).flatten)

/-- UTF-8 encoding of one scalar value, byte list. -/
def utf8Encode (c : Char) : List Nat :=
  let n := c.toNat
  if n < 0x80 then [n]
  else if n < 0x800 then [0xc0 ||| (n >>> 6), 0x80 ||| (n &&& 0x3f)]
  else if n < 0x10000 then
    [0xe0 ||| (n >>> 12), 0x80 ||| ((n >>> 6) &&& 0x3f), 0x80 ||| (n &&& 0x3f)]
  else
    [0xf0 ||| (n >>> 18), 0x80 ||| ((n >>> 12) &&& 0x3f),
     0x80 ||| ((n >>> 6) &&& 0x3f), 0x80 ||| (n &&& 0x3f)]

/-- UTF-8 bytes of a string, as Rust `str::as_bytes`. -/
def strBytes (s : String) : List Nat :=
  (s.data.map utf8Encode).flatten

/-- UTF-8 byte length of a character list, as Rust `str::len`. -/
def byteLen (s : List Char) : Nat :=
  ((s.map utf8Encode).flatten).length

/-! ## SHA-256 (the `sha2` crate, embedded as the standard algorithm) -/

/-- Truncation to a 32-bit word. -/
def w32 (x : Nat) : Nat := x % 4294967296

/-- Right rotation of a 32-bit word. -/
def rotr32 (n x : Nat) : Nat := w32 ((x >>> n) ||| (x <<< (32 - n)))

def bigSigma0 (x : Nat) : Nat := rotr32 2 x ^^^ rotr32 13 x ^^^ rotr32 22 x

def bigSigma1 (x : Nat) : Nat := rotr32 6 x ^^^ rotr32 11 x ^^^ rotr32 25 x

def smallSigma0 (x : Nat) : Nat := rotr32 7 x ^^^ rotr32 18 x ^^^ (x >>> 3)

def smallSigma1 (x : Nat) : Nat := rotr32 17 x ^^^ rotr32 19 x ^^^ (x >>> 10)

def shaCh (x y z : Nat) : Nat := (x &&& y) ^^^ ((x ^^^ 0xffffffff) &&& z)

def shaMaj (x y z : Nat) : Nat := (x &&& y) ^^^ (x &&& z) ^^^ (y &&& z)

/-- The 64 SHA-256 round constants. -/
def shaK : List Nat :=
  [0x428a2f98, 0x71374491, 0xb5c0fbcf, 0xe9b5dba5, 0x3956c25b, 0x59f111f1,
   0x923f82a4, 0xab1c5ed5] ++
  [0xd807aa98, 0x12835b01, 0x243185be, 0x550c7dc3, 0x72be5d74, 0x80deb1fe,
   0x9bdc06a7, 0xc19bf174] ++
  [0xe49b69c1, 0xefbe4786, 0x0fc19dc6, 0x240ca1cc, 0x2de92c6f, 0x4a7484aa,
   0x5cb0a9dc, 0x76f988da] ++
  [0x983e5152, 0xa831c66d, 0xb00327c8, 0xbf597fc7, 0xc6e00bf3, 0xd5a79147,
   0x06ca6351, 0x14292967] ++
  [0x27b70a85, 0x2e1b2138, 0x4d2c6dfc, 0x53380d13, 0x650a7354, 0x766a0abb,
   0x81c2c92e, 0x92722c85] ++
  [0xa2bfe8a1, 0xa81a664b, 0xc24b8b70, 0xc76c51a3, 0xd192e819, 0xd6990624,
   0xf40e3585, 0x106aa070] ++
  [0x19a4c116, 0x1e376c08, 0x2748774c, 0x34b0bcb5, 0x391c0cb3, 0x4ed8aa4a,
   0x5b9cca4f, 0x682e6ff3] ++
  [0x748f82ee, 0x78a5636f, 0x84c87814, 0x8cc70208, 0x90befffa, 0xa4506ceb,
   0xbef9a3f7, 0xc67178f2]

/-- The SHA-256 initial hash state. -/
def shaH0 : List Nat :=
  [0x6a09e667, 0xbb67ae85, 0x3c6ef372, 0xa54ff53a,
   0x510e527f, 0x9b05688c, 0x1f83d9ab, 0x5be0cd19]

/-- Big-endian 8-byte encoding of a length in bits. -/
def be64 (n : Nat) : List Nat :=
  [(n >>> 56) % 256, (n >>> 48) % 256, (n >>> 40) % 256, (n >>> 32) % 256,
   (n >>> 24) % 256, (n >>> 16) % 256, (n >>> 8) % 256, n % 256]

/-- SHA-256 message padding: 0x80, zeros to 56 mod 64, 8-byte bit length. -/
def sha256Pad (msg : List Nat) : List Nat :=
  msg ++ [0x80] ++ List.replicate ((64 - (msg.length + 9) % 64) % 64) 0
      ++ be64 (8 * msg.length)

/-- Big-endian 32-bit words of a byte list. -/
def toWords : List Nat → List Nat
  | a :: b :: c :: d :: rest =>
      ((((a <<< 8) ||| b) <<< 8 ||| c) <<< 8 ||| d) :: toWords rest
  | _ => []

/-- Message-schedule extension: append the next word `n` times. -/
def shaExtendLoop : Nat → List Nat → List Nat
  | 0, ws => ws
  | n + 1, ws =>
      let t := w32 (smallSigma1 (ws.getD (ws.length - 2) 0)
        + ws.getD (ws.length - 7) 0
        + smallSigma0 (ws.getD (ws.length - 15) 0)
        + ws.getD (ws.length - 16) 0)
      shaExtendLoop n (ws ++ [t])

/-- One SHA-256 compression round on the 8-word state. -/
def shaCompressWord (st : List Nat) (k w : Nat) : List Nat :=
  match st with
  | [a, b, c, d, e, f, g, h] =>
      let t1 := w32 (h + bigSigma1 e + shaCh e f g + k + w)
      let t2 := w32 (bigSigma0 a + shaMaj a b c)
      [w32 (t1 + t2), a, b, c, w32 (d + t1), e, f, g]
  | other => other

/-- One 64-byte block of SHA-256. -/
def shaBlock (h : List Nat) (block : List Nat) : List Nat :=
  let ws := shaExtendLoop 48 (toWords block)
  let st := (shaK.zip ws).foldl (fun st kw => shaCompressWord st kw.1 kw.2) h
  (h.zip st).map (fun p => w32 (p.1 + p.2))

/-- Split a byte list into 64-byte chunks; the first argument is fuel that
the caller sets to the list length, which bounds the chunk count. -/
def chunks64Aux : Nat → List Nat → List (List Nat)
  | 0, _ => []
  | _, [] => []
  | fuel + 1, a :: l => (a :: l).take 64 :: chunks64Aux fuel ((a :: l).drop 64)

/-- Split a byte list into 64-byte chunks. -/
def chunks64 (l : List Nat) : List (List Nat) :=
  chunks64Aux l.length l

/-- SHA-256 digest (32 bytes) of a byte list. -/
def sha256 (msg : List Nat) : List Nat :=
  let final := (chunks64 (sha256Pad msg)).foldl shaBlock shaH0
  (final.map (fun w =>
    [(w >>> 24) % 256, (w >>> 16) % 256, (w >>> 8) % 256, w % 256])).flatten

/-- Lowercase hex SHA-256 of a byte list, as the source formats digests. -/
def sha256hex (msg : List Nat) : String := bytesToHex (sha256 msg)

/-! ## Command validator (`polykit-core/src/command_validator.rs`) -/

/-- Error type of polykit-core (`error.rs`), restricted to the variants the
embedded operations construct. -/
inductive PolyError where
  | taskExecution (package task message : String)
  | packageNotFound (name available : String)
  | circularDependency (message : String)
  | adapter (package message : String)
deriving DecidableEq, Repr

/-- Decidable equality for `Except` results, used to evaluate the embedded
operations on concrete inputs. -/
instance decEqExcept {ε α : Type} [DecidableEq ε] [DecidableEq α] :
    DecidableEq (Except ε α) := fun a b =>
  match a, b with
  | .ok x, .ok y =>
      if h : x = y then .isTrue (by rw [h]) else .isFalse (by simp [h])
  | .error x, .error y =>
      if h : x = y then .isTrue (by rw [h]) else .isFalse (by simp [h])
  | .ok _, .error _ => .isFalse (by simp)
  | .error _, .ok _ => .isFalse (by simp)

/-- Rust `char::is_whitespace`: the Unicode White_Space property. -/
def rustIsWhitespace (c : Char) : Bool :=
  decide ((0x09 ≤ c.toNat ∧ c.toNat ≤ 0x0D) ∨ c.toNat = 0x20 ∨ c.toNat = 0x85 ∨
    c.toNat = 0xA0 ∨ c.toNat = 0x1680 ∨ (0x2000 ≤ c.toNat ∧ c.toNat ≤ 0x200A) ∨
    c.toNat = 0x2028 ∨ c.toNat = 0x2029 ∨ c.toNat = 0x202F ∨ c.toNat = 0x205F ∨
    c.toNat = 0x3000)

/-- Rust `str::trim`: drop Unicode whitespace from both ends. -/
def trimChars (s : List Char) : List Char :=
  ((s.dropWhile rustIsWhitespace).reverse.dropWhile rustIsWhitespace).reverse

/-- Rust `str::contains(char)`. -/
def hasChar (s : List Char) (c : Char) : Bool :=
  s.any (fun a => decide (a = c))

/-- Rust `str::contains` of a two-character pattern. -/
def hasPair (x y : Char) : List Char → Bool
  | a :: b :: rest => (decide (a = x) && decide (b = y)) || hasPair x y (b :: rest)
  | _ => false

/-- Shell command validator (`CommandValidator`), holding `allow_shell`. -/
structure CommandValidator where
  allow_shell : Bool

/-- Translation of `CommandValidator::validate`.  The command string is its
character list; Rust `len()` is the UTF-8 byte length. -/
def CommandValidator.validate (v : CommandValidator) (command : List Char) :
    Except PolyError Unit :=
  if (trimChars command).isEmpty then
    .error (.taskExecution "unknown" "unknown" "Command cannot be empty")
  else if byteLen command > 10000 then
    .error (.taskExecution "unknown" "unknown"
      "Command exceeds maximum length of 10,000 characters")
  else if hasChar command (Char.ofNat 0) then
    .error (.taskExecution "unknown" "unknown" "Command contains null bytes")
  else if (hasPair '\r' '\n' command || hasChar command '\n') &&
      hasChar (trimChars command) '\n' then
    .error (.taskExecution "unknown" "unknown" "Command contains embedded newlines")
  else if !v.allow_shell && (hasChar command ';' || hasPair '&' '&' command ||
      hasPair '|' '|' command || hasChar command '|' ||
      hasChar command (Char.ofNat 96) || hasChar command '$') then
    .error (.taskExecution "unknown" "unknown"
      "Command contains shell features that are not allowed in strict mode")
  else
    .ok ()

/-! ## Cache key (`polykit-core/src/remote_cache/cache_key.rs`)

The deterministic fingerprint record.  `env_vars` models the `BTreeMap`
(held sorted by key); `input_file_hashes` models the `FxHashMap` as the list
of its entries in the iteration order the map happens to have, which in the
source depends on the insertion history, not only on the map contents. -/

structure CacheKey where
  package_id : String
  task_name : String
  command : String
  env_vars : List (String × String)
  input_file_hashes : List (String × String)
  dependency_graph_hash : String
  toolchain_version : String
deriving DecidableEq, Repr

/-- Little-endian 8-byte encoding of a `u64`, the bincode length prefix. -/
def u64le (n : Nat) : List Nat :=
  [n % 256, (n >>> 8) % 256, (n >>> 16) % 256, (n >>> 24) % 256,
   (n >>> 32) % 256, (n >>> 40) % 256, (n >>> 48) % 256, (n >>> 56) % 256]

/-- Bincode wire format of a string (and of a `PathBuf`, which serde treats
as a string): u64 length prefix, then the UTF-8 bytes. -/
def bincodeStr (s : String) : List Nat :=
  u64le (strBytes s).length ++ strBytes s

/-- Bincode wire format of a string pair. -/
def bincodePair (p : String × String) : List Nat :=
  bincodeStr p.1 ++ bincodeStr p.2

/-- Bincode wire format of a sequence or map: u64 entry count, then the
entries in iteration order. -/
def bincodeSeq (l : List (String × String)) : List Nat :=
  u64le l.length ++ (l.map bincodePair).flatten

/-- The `bincode::serialize` wire format of a `CacheKey`: the fields in
declaration order; `env_vars` through its custom sorted-pair-vector
serializer, `input_file_hashes` as a map in iteration order.  (The source's
unreachable manual-format fallback branch for a bincode failure is not
modelled; bincode serialization of this record cannot fail.) -/
def serializeCacheKey (k : CacheKey) : List Nat :=
  bincodeStr k.package_id ++ bincodeStr k.task_name ++ bincodeStr k.command ++
  bincodeSeq k.env_vars ++ bincodeSeq k.input_file_hashes ++
  bincodeStr k.dependency_graph_hash ++ bincodeStr k.toolchain_version

/-- Translation of `CacheKey::hash`: hex SHA-256 of the bincode
serialization. -/
def CacheKey.hash (k : CacheKey) : String :=
  sha256hex (serializeCacheKey k)

/-- Translation of `CacheKey::as_string`. -/
def CacheKey.as_string (k : CacheKey) : String := k.hash

/-! ## Local task cache (`polykit-core/src/task_cache.rs`) -/

/-- Model of the external `xxhash_rust::xxh3::xxh3_64` function: an
executable stand-in 64-bit hash (FNV-1a).  Every property proved below
depends only on it being a deterministic pure function of the input bytes,
never on its concrete values. -/
def xxh3_64 (bytes : List Nat) : Nat :=
  bytes.foldl (fun h b => ((h ^^^ b) * 1099511628211) % 18446744073709551616)
    14695981039346656037

/-- One serialized task-cache file (`TaskCacheEntry`). -/
structure TaskCacheEntry where
  version : Nat
  package_name : String
  task_name : String
  command : String
  command_hash : Nat
  success : Bool
  stdout : String
  stderr : String
deriving DecidableEq, Repr

/-- The `TASK_CACHE_VERSION` constant. -/
def TASK_CACHE_VERSION : Nat := 1

/-- In-memory result of one task execution (`runner.rs::TaskResult`). -/
structure TaskResult where
  package_name : String
  task_name : String
  success : Bool
  stdout : String
  stderr : String
deriving DecidableEq, Repr

/-- The cache directory contents: filename stem to entry.  `fs::write`
overwrites, so insertion replaces an entry under the same key. -/
def CacheState := List (String × TaskCacheEntry)

instance : DecidableEq CacheState := by
  unfold CacheState
  infer_instance

/-- Lookup of a cache file by filename stem. -/
def cacheLookup (st : CacheState) (key : String) : Option TaskCacheEntry :=
  (st.find? (fun e => decide (e.1 = key))).map (fun e => e.2)

/-- Overwriting write of a cache file. -/
def cacheInsert (st : CacheState) (key : String) (entry : TaskCacheEntry) :
    CacheState :=
  (key, entry) :: st.filter (fun e => decide (¬ e.1 = key))

/-- Rust `str::replace` of the path-hostile characters, as in
`TaskCache::cache_key`. -/
def sanitizeName (s : String) : String :=
  String.mk (s.data.map (fun c =>
    if c = '/' ∨ c = '\\' ∨ c = '.' ∨ c = ':' then '_' else c))

/-- Rust `format` with the `x` specifier on a `u64`: minimal lowercase hex. -/
def hexOfNat (n : Nat) : String :=
  String.mk (Nat.toDigits 16 n)

/-- Translation of `TaskCache::cache_key`: the filename stem derived from
package name, task name and command — the full fingerprint (env vars, input
files, dependency graph, toolchain) does not enter it. -/
def TaskCache.cache_key (package_name task_name command : String) : String :=
  let hash := xxh3_64 (strBytes package_name ++ strBytes task_name
    ++ strBytes command)
  "task_" ++ sanitizeName package_name ++ "_" ++ sanitizeName task_name ++ "_"
    ++ hexOfNat hash

/-- Translation of `TaskCache::get`.  The filesystem read, decompression and
deserialization of the entry are modelled by the structured `CacheState`, so
their failure branches (corrupt files) are absent; the canonical-path safety
check concerns symlinked cache directories and has no effect on the map
view.  A missing file and every mismatch branch return `none`. -/
def TaskCache.get (st : CacheState) (package_name task_name command : String) :
    Option TaskResult :=
  match cacheLookup st (TaskCache.cache_key package_name task_name command) with
  | none => none
  | some entry =>
    if ¬ entry.version = TASK_CACHE_VERSION then none
    else if ¬ entry.package_name = package_name ∨ ¬ entry.task_name = task_name
        ∨ ¬ entry.command = command then none
    else if ¬ xxh3_64 (strBytes command) = entry.command_hash then none
    else some ⟨entry.package_name, entry.task_name, entry.success,
      entry.stdout, entry.stderr⟩

/-- Translation of `TaskCache::put`: a failed result is not written at all;
a successful one is serialized and written under the triple-derived key. -/
def TaskCache.put (st : CacheState) (package_name task_name command : String)
    (result : TaskResult) : CacheState :=
  if ¬ result.success then st
  else
    cacheInsert st (TaskCache.cache_key package_name task_name command)
      ⟨TASK_CACHE_VERSION, package_name, task_name, command,
       xxh3_64 (strBytes command), result.success, result.stdout, result.stderr⟩

namespace Polykit

/-! ## Packages and tasks (`polykit-core/src/package.rs`) -/

/-- Supported language tags. -/
inductive Language where
  | js
  | ts
  | python
  | go
  | rust
deriving DecidableEq, Repr

/-- A task declared by a package. -/
structure Task where
  name : String
  command : String
  depends_on : List String
deriving DecidableEq, Repr

/-- A package discovered in the workspace. -/
structure Package where
  name : String
  language : Language
  public : Bool
  path : String
  deps : List String
  tasks : List Task
  version : Option String
deriving DecidableEq, Repr

/-- Translation of `Package::get_task`: first task with the given name. -/
def Package.get_task (p : Package) (name : String) : Option Task :=
  p.tasks.find? (fun t => decide (t.name = name))

/-! ## Task executor (`polykit-core/src/executor.rs`)

The executor spawns processes, talks to the remote cache over the network
and reads the local cache from disk.  The process spawn and the remote-cache
consultation (`check_remote_cache`, whose network fetch, artifact
verification and extraction happen behind `block_on`) are the effect
boundary: they are supplied by an `ExecEnv`, while the local task cache is
threaded explicitly as a `CacheState`. -/

/-- Captured output of one spawned process (`std::process::Output`). -/
structure SpawnOutput where
  success : Bool
  stdout : String
  stderr : String
deriving DecidableEq, Repr

/-- Effect environment of one `TaskExecutor`: whether a remote cache and a
local task cache are configured, the outcome of `check_remote_cache` per
(package, task, command), the command validator, and the process spawn. -/
structure ExecEnv where
  hasRemote : Bool
  hasLocalCache : Bool
  validator : CommandValidator
  remoteCheck : Package → String → String → Except PolyError (Option TaskResult)
  spawn : Package → String → Except PolyError SpawnOutput

/-- The remote-cache consultation as the executor sees it: `some` only on a
verified hit; `Ok(None)` and every error both fall through to the local
path. -/
def remoteHit (env : ExecEnv) (p : Package) (task_name command : String) :
    Option TaskResult :=
  if env.hasRemote then
    match env.remoteCheck p task_name command with
    | .ok (some r) => some r
    | .ok none => none
    | .error _ => none
  else none

/-- Translation of `TaskExecutor::execute_task_internal`, returning the
result together with the local task cache state after the call.  The
asynchronous remote publish spawned on success does not touch the local
cache and is outside the returned state. -/
def execute_task_internal (env : ExecEnv) (st : CacheState) (package : Package)
    (task_name : String) : Except PolyError (TaskResult × CacheState) :=
  match package.get_task task_name with
  | none => .error (.taskExecution package.name task_name "Task not found")
  | some task =>
    match remoteHit env package task_name task.command with
    | some cached_result => .ok (cached_result, st)
    | none =>
      match (if env.hasLocalCache then
          TaskCache.get st package.name task_name task.command else none) with
      | some cached_result => .ok (cached_result, st)
      | none =>
        match env.validator.validate task.command.data with
        | .error e => .error e
        | .ok _ =>
          match env.spawn package task.command with
          | .error e => .error e
          | .ok output =>
            let result : TaskResult := ⟨package.name, task_name,
              output.success, output.stdout, output.stderr⟩
            let st2 := if env.hasLocalCache then
              TaskCache.put st package.name task_name task.command result
              else st
            .ok (result, st2)

/-- Translation of the recursive `visit_task` helper of
`TaskExecutor::build_task_dependency_order`.  The state is (order, visited,
visiting); the fuel argument only discharges termination and is set by the
caller above the maximal possible recursion depth, which is bounded by the
number of distinct task names. -/
def visitTask (package : Package) :
    Nat → String → List String × List String × List String →
    Except PolyError (List String × List String × List String)
  | 0, task_name, _ =>
      .error (.taskExecution package.name task_name "fuel exhausted")
  | fuel + 1, task_name, (order, visited, visiting) =>
    if visiting.contains task_name then
      .error (.taskExecution package.name task_name
        "Circular task dependency detected")
    else if visited.contains task_name then
      .ok (order, visited, visiting)
    else
      match package.get_task task_name with
      | none => .error (.taskExecution package.name task_name "Task not found")
      | some task => do
          let s ← task.depends_on.foldlM
            (fun s dep => visitTask package fuel dep s)
            (order, visited, task_name :: visiting)
          .ok (s.1 ++ [task_name], task_name :: s.2.1, s.2.2.erase task_name)

/-- Translation of `TaskExecutor::build_task_dependency_order`. -/
def build_task_dependency_order (package : Package) (task_name : String) :
    Except PolyError (List String) :=
  match package.get_task task_name with
  | none => .error (.taskExecution package.name task_name "Task not found")
  | some _ => do
      let s ← visitTask package (package.tasks.length + 1) task_name ([], [], [])
      .ok s.1

/-- The loop of `TaskExecutor::execute_task_with_deps`: run the tasks of the
local order, collecting results; return early exactly when a task fails and
it is the requested task. -/
def execLoop (env : ExecEnv) (package : Package) (task_name : String) :
    List String → CacheState → List TaskResult →
    Except PolyError (List TaskResult × CacheState)
  | [], st, results => .ok (results, st)
  | t :: rest, st, results =>
    match execute_task_internal env st package t with
    | .error e => .error e
    | .ok (r, st2) =>
      if ¬ r.success ∧ t = task_name then .ok (results ++ [r], st2)
      else execLoop env package task_name rest st2 (results ++ [r])

/-- Translation of `TaskExecutor::execute_task_with_deps`. -/
def execute_task_with_deps (env : ExecEnv) (st : CacheState)
    (package : Package) (task_name : String) :
    Except PolyError (List TaskResult × CacheState) :=
  match build_task_dependency_order package task_name with
  | .error e => .error e
  | .ok task_order => execLoop env package task_name task_order st []

/-! ## Remote cache key construction (`polykit-core/src/remote_cache/mod.rs`) -/

/-- Translation of `RemoteCache::build_cache_key`.  The effectful inputs are
parameters: `deps` is `graph.dependencies(package.name)` (empty on error),
`env_vars` the sorted allowlist intersection with the process environment,
`input_file_hashes` the walked-and-hashed configured input files in the
iteration order their map ends up with, and `toolchain_version` the detected
toolchain line. -/
def RemoteCache.build_cache_key (package : Package)
    (task_name command : String) (deps : List String) (package_path : String)
    (env_vars : List (String × String))
    (input_file_hashes : List (String × String))
    (toolchain_version : String) : CacheKey :=
  let dep_hash_input := package.name ++ ":" ++ task_name ++
    String.join (deps.map (fun d => ":" ++ d))
  { package_id := package.name ++ "-" ++
      ((sha256hex (strBytes package_path)).take 8)
    task_name := task_name
    command := command
    env_vars := env_vars
    input_file_hashes := input_file_hashes
    dependency_graph_hash := sha256hex (strBytes dep_hash_input)
    toolchain_version := toolchain_version }

/-! ## Concrete fixtures for the executor and fingerprint claims -/

/-- Two-entry fingerprint whose file-hash map iterates `a` then `b`. -/
def c4KeyA : CacheKey :=
  ⟨"p", "t", "c", [], [("a", "h1"), ("b", "h2")], "d", "v"⟩

/-- The same fingerprint map with the opposite iteration order. -/
def c4KeyB : CacheKey :=
  ⟨"p", "t", "c", [], [("b", "h2"), ("a", "h1")], "d", "v"⟩

/-- A package with a failing prerequisite task: `main` depends on `pre`. -/
def c2Package : Package :=
  ⟨"p", .js, true, "p", [],
   [⟨"pre", "boom", []⟩, ⟨"main", "ok", ["pre"]⟩], none⟩

/-- Executor environment without caches whose spawn fails exactly for the
command `boom`. -/
def c2Env : ExecEnv :=
  ⟨false, false, ⟨true⟩, fun _ _ _ => .ok none,
   fun _ cmd => .ok ⟨decide (cmd = "ok"), "", ""⟩⟩

/-- A one-task package for the local-cache claims. -/
def c3Package : Package :=
  ⟨"p", .js, true, "p", [], [⟨"build", "echo hi", []⟩], none⟩

/-- First invocation environment: local cache only, successful spawn. -/
def c3EnvA : ExecEnv :=
  ⟨false, true, ⟨true⟩, fun _ _ _ => .ok none,
   fun _ _ => .ok ⟨true, "out", ""⟩⟩

/-- Second invocation environment: same, but its spawn would fail. -/
def c3EnvB : ExecEnv :=
  ⟨false, true, ⟨true⟩, fun _ _ _ => .ok none,
   fun _ _ => .ok ⟨false, "", "boom"⟩⟩

/-- The result of the first `c3` invocation. -/
def c3ResultA : TaskResult := ⟨"p", "build", true, "out", ""⟩

/-- The local cache contents after the first `c3` invocation. -/
def c3StateA : CacheState := TaskCache.put [] "p" "build" "echo hi" c3ResultA

/-- A one-task package for the never-cache-failure claim. -/
def c1Task : Task := ⟨"build", "echo hi", []⟩

/-- The package declaring `c1Task`. -/
def c1Package : Package := ⟨"p1", .js, true, "p1", [], [c1Task], none⟩

/-- Executor environment with a local cache and a successful spawn. -/
def c1Env : ExecEnv :=
  ⟨false, true, ⟨true⟩, fun _ _ _ => .ok none,
   fun _ _ => .ok ⟨true, "out", ""⟩⟩

/-- The result of running `c1Task` under `c1Env`. -/
def c1Result : TaskResult := ⟨"p1", "build", true, "out", ""⟩

/-- The local cache contents after that run. -/
def c1StateOut : CacheState := TaskCache.put [] "p1" "build" "echo hi" c1Result

/-! ## Dependency graph (`polykit-core/src/graph.rs`)

Packages get dense ids — their index in the construction list, as in the
source — and edges go from a package to each of its deps.  `petgraph` is
embedded through its contracts: `toposort` returns, exactly when the graph
is acyclic, an order that lists every node before its edge targets (the
source then reverses it, so the cached order is dependencies-first);
`neighbors_directed` returns the (reversed) adjacent nodes, whose order no
verified property depends on. -/

/-- Rust `str`-keyed membership test. -/
def hasStr (l : List String) (s : String) : Bool :=
  l.any (fun a => decide (a = s))

/-- Lookup of the node id of a package name over the enumerated package
list; a later package with the same name wins, as repeated
`HashMap::insert` leaves the last value. -/
def nameToNodeAux : List (Nat × Package) → String → Option Nat
  | [], _ => none
  | ip :: rest, name =>
      match nameToNodeAux rest name with
      | some j => some j
      | none => if ip.2.name = name then some ip.1 else none

/-- The `name_to_node` map of `DependencyGraph::new`. -/
def nameToNode (pkgs : List Package) (name : String) : Option Nat :=
  nameToNodeAux pkgs.enum name

/-- Edges contributed by one package (index `i`): one per dep, in dep
order, failing with `PackageNotFound` on an unknown dep. -/
def depEdges (pkgs : List Package) (i : Nat) :
    List String → Except PolyError (List (Nat × Nat))
  | [] => .ok []
  | dep :: rest =>
    match nameToNode pkgs dep with
    | none => .error (.packageNotFound dep "Dependency not found")
    | some j =>
      match depEdges pkgs i rest with
      | .error e => .error e
      | .ok es => .ok ((i, j) :: es)

/-- The edge list over the enumerated packages, package by package. -/
def buildEdgesAux (pkgs : List Package) :
    List (Nat × Package) → Except PolyError (List (Nat × Nat))
  | [] => .ok []
  | ip :: rest =>
    match depEdges pkgs ip.1 ip.2.deps with
    | .error e => .error e
    | .ok es =>
      match buildEdgesAux pkgs rest with
      | .error e => .error e
      | .ok es2 => .ok (es ++ es2)

/-- The edge list of `DependencyGraph::new`. -/
def buildEdges (pkgs : List Package) : Except PolyError (List (Nat × Nat)) :=
  buildEdgesAux pkgs pkgs.enum

/-- Every edge target out of `i` is already placed. -/
def depsPlaced (edges : List (Nat × Nat)) (placed : List Nat) (i : Nat) :
    Bool :=
  edges.all (fun e =>
    if e.1 = i then placed.any (fun x => decide (x = e.2)) else true)

/-- Dependencies-first topological sort: the contract of
`petgraph::algo::toposort` composed with the `rev()` in
`DependencyGraph::new`.  `none` is the cycle error.  Which admissible order
petgraph computes is immaterial to every property proved below, so the
model places the first placeable node each round; fuel is the node count. -/
def kahnAux (edges : List (Nat × Nat)) :
    Nat → List Nat → List Nat → Option (List Nat)
  | 0, placed, remaining =>
      if remaining = [] then some placed else none
  | fuel + 1, placed, remaining =>
      match remaining.find? (depsPlaced edges placed) with
      | none => if remaining = [] then some placed else none
      | some i => kahnAux edges fuel (placed ++ [i]) (remaining.erase i)

/-- The cached dependencies-first topological order over nodes `0..n`. -/
def topoSortRev (edges : List (Nat × Nat)) (n : Nat) : Option (List Nat) :=
  kahnAux edges n [] (List.range n)

/-- Association-list lookup modelling the `level_map` (`insert` conses, so
the first match is the latest insertion). -/
def lookupLevel (m : List (Nat × Nat)) (i : Nat) : Option Nat :=
  (m.find? (fun e => decide (e.1 = i))).map (fun e => e.2)

/-- Outgoing neighbours of node `i` (`neighbors_directed(_, Outgoing)`),
in petgraph's reverse-insertion order. -/
def outNeighbors (edges : List (Nat × Nat)) (i : Nat) : List Nat :=
  ((edges.filter (fun e => decide (e.1 = i))).map (fun e => e.2)).reverse

/-- Rust `Iterator::max` on levels. -/
def listMax? : List Nat → Option Nat
  | [] => none
  | a :: rest =>
      match listMax? rest with
      | none => some a
      | some b => some (Nat.max a b)

/-- The level-vector push of `compute_dependency_levels_compact`: grow with
empty levels while `levels.len() <= level`, then push onto `levels[level]`. -/
def pushAtLevel : List (List Nat) → Nat → Nat → List (List Nat)
  | [], 0, pid => [[pid]]
  | [], lvl + 1, pid => [] :: pushAtLevel [] lvl pid
  | lv :: rest, 0, pid => (lv ++ [pid]) :: rest
  | lv :: rest, lvl + 1, pid => lv :: pushAtLevel rest lvl pid

/-- One iteration of `compute_dependency_levels_compact` for node `pid`:
its level is 0 without deps, else one above the maximum mapped level of its
dep targets. -/
def levelStep (edges : List (Nat × Nat))
    (st : List (List Nat) × List (Nat × Nat)) (pid : Nat) :
    List (List Nat) × List (Nat × Nat) :=
  let dep_ids := outNeighbors edges pid
  let lvl :=
    if dep_ids.isEmpty then 0
    else
      match listMax? (dep_ids.filterMap (lookupLevel st.2)) with
      | some l => l + 1
      | none => 0
  (pushAtLevel st.1 lvl pid, (pid, lvl) :: st.2)

/-- Translation of `compute_dependency_levels_compact`, iterating the
dependencies-first topological order. -/
def computeLevels (edges : List (Nat × Nat)) (order : List Nat) :
    List (List Nat) :=
  (order.foldl (levelStep edges) ([], [])).1

/-- The dependency graph: packages, edge list over dense ids (the index in
the package list), and the two construction-time caches, kept as ids. -/
structure DependencyGraph where
  packages : List Package
  edges : List (Nat × Nat)
  cached_topological_order : List Nat
  dependency_levels_ids : List (List Nat)
deriving DecidableEq, Repr

/-- Translation of `DependencyGraph::new`. -/
def DependencyGraph.new (pkgs : List Package) :
    Except PolyError DependencyGraph :=
  match buildEdges pkgs with
  | .error e => .error e
  | .ok edges =>
    match topoSortRev edges pkgs.length with
    | none => .error (.circularDependency "Cycle detected")
    | some order => .ok ⟨pkgs, edges, order, computeLevels edges order⟩

/-- The `id_to_name` view: name of the package with a dense id. -/
def idName (pkgs : List Package) (id : Nat) : String :=
  (pkgs.map Package.name).getD id ""

/-- Translation of `topological_order`: the cached ids as names. -/
def DependencyGraph.topological_order (g : DependencyGraph) : List String :=
  g.cached_topological_order.map (idName g.packages)

/-- Translation of `dependency_levels`: the cached levels as names. -/
def DependencyGraph.dependency_levels (g : DependencyGraph) :
    List (List String) :=
  g.dependency_levels_ids.map (fun lv => lv.map (idName g.packages))

/-- Translation of `dependents`: names of the incoming neighbours of a
package, in petgraph's reverse-insertion order. -/
def DependencyGraph.dependents (g : DependencyGraph) (package_name : String) :
    Except PolyError (List String) :=
  match nameToNode g.packages package_name with
  | none => .error (.packageNotFound package_name "Package not found")
  | some node =>
      .ok ((((g.edges.filter (fun e => decide (e.2 = node))).map
        (fun e => e.1)).reverse).map (idName g.packages))

/-- Index of the first occurrence, Rust `iter().position`-style; used to
state order properties. -/
def idxOf {α : Type} [DecidableEq α] (l : List α) (x : α) : Nat :=
  l.findIdx (fun y => decide (y = x))

/-- Index of the level containing a name in `dependency_levels()`. -/
def levelIdx (levels : List (List String)) (name : String) : Option Nat :=
  levels.findIdx? (fun lv => hasStr lv name)

/-- The iterative DFS loop of `all_dependents`.  The fuel argument bounds
the iteration count and only discharges termination; the caller passes a
bound above the worst case, making the exhaustion branch unreachable. -/
def allDependentsLoop (g : DependencyGraph) :
    Nat → List String → List String → Except PolyError (List String)
  | 0, result, _ => .ok result
  | _ + 1, result, [] => .ok result
  | fuel + 1, result, current :: rest =>
    if hasStr result current then allDependentsLoop g fuel result rest
    else
      match g.dependents current with
      | .error e => .error e
      | .ok direct =>
          let result2 := result ++ [current]
          let toPush := direct.filter (fun d => ! hasStr result2 d)
          allDependentsLoop g fuel result2 (toPush.reverse ++ rest)

/-- Fuel bound for the DFS: each iteration pops one stack entry; at most
one entry per package is ever expanded, pushing at most the edge count. -/
def allDependentsFuel (g : DependencyGraph) : Nat :=
  (g.packages.length + 1) * (g.packages.length + g.edges.length + 1)

/-- Translation of `all_dependents` on a memo miss: DFS from the package
over incoming edges, then `result.remove(package_name)`. -/
def computeAllDependents (g : DependencyGraph) (package_name : String) :
    Except PolyError (List String) :=
  match allDependentsLoop g (allDependentsFuel g) [] [package_name] with
  | .error e => .error e
  | .ok result => .ok (result.erase package_name)

/-- Translation of `all_dependents` with its `transitive_deps_cache`
threaded explicitly: a hit returns the cached set unchanged, a miss
computes, stores and returns. -/
def allDependentsMemo (g : DependencyGraph)
    (cache : List (String × List String)) (package_name : String) :
    Except PolyError (List String × List (String × List String)) :=
  match cache.find? (fun e => decide (e.1 = package_name)) with
  | some e => .ok (e.2, cache)
  | none =>
    match computeAllDependents g package_name with
    | .error e => .error e
    | .ok result => .ok (result, (package_name, result) :: cache)

/-- Three-package chain: `b` depends on `a`, `c` on `b`. -/
def c10Pkgs : List Package :=
  [⟨"a", .js, true, "a", [], [], none⟩,
   ⟨"b", .js, true, "b", ["a"], [], none⟩,
   ⟨"c", .js, true, "c", ["b"], [], none⟩]

/-- The dependency graph of `c10Pkgs` as `DependencyGraph::new` builds it. -/
def c10Graph : DependencyGraph :=
  ⟨c10Pkgs, [(1, 0), (2, 1)], [0, 1, 2], [[0], [1], [2]]⟩

/-- A dependencies-first order for an edge list: every edge source appears,
its target appears too, and the target strictly earlier. -/
def GoodOrder (edges : List (Nat × Nat)) (l : List Nat) : Prop :=
  ∀ e ∈ edges, e.1 ∈ l → e.2 ∈ l ∧ idxOf l e.2 < idxOf l e.1

/-- Invariant of the level computation after the nodes `processed` have been
folded: the level map covers exactly the processed nodes, each mapped level
satisfies the step formula (0 without deps, else one above the maximal dep
level), levels of processed nodes only depend on processed targets, the
level vector holds a node exactly at its mapped level, and together the
levels hold exactly the processed nodes. -/
structure LevelInv (edges : List (Nat × Nat)) (processed : List Nat)
    (levels : List (List Nat)) (lmap : List (Nat × Nat)) : Prop where
  keys : ∀ i, (lookupLevel lmap i).isSome = true ↔ i ∈ processed
  speclvl : ∀ i l, lookupLevel lmap i = some l →
    l = (if (outNeighbors edges i).isEmpty then 0
      else
        match listMax? ((outNeighbors edges i).filterMap (lookupLevel lmap)) with
        | some m => m + 1
        | none => 0)
  closed : ∀ i ∈ processed, ∀ q ∈ outNeighbors edges i, q ∈ processed
  mem : ∀ k x, x ∈ levels.getD k [] ↔ lookupLevel lmap x = some k
  perm : levels.flatten.Perm processed

/-! ## Artifact (`polykit-core/src/remote_cache/artifact.rs`)

The tar and zstd crates and serde_json are embedded through their
round-trip contracts: a compressed artifact byte string is identified with
the tar entry list it decodes to, and a `metadata.json` / `manifest.json`
body with the record it parses to.  `encodeTar` fixes one concrete byte
rendering of an entry list, standing for the actual compressed stream
wherever the source takes its length or its SHA-256. -/

/-- A relative path as its components. -/
abbrev RelPath := List String

/-- The `metadata.json` record. -/
structure ArtifactMetadata where
  package_name : String
  task_name : String
  command : String
  cache_key_hash : String
  created_at : Nat
  version : Nat
deriving DecidableEq, Repr

/-- The `manifest.json` record: output paths with hex SHA-256 of their
bytes (in `BTreeMap` key order), and the total uncompressed size. -/
structure ArtifactManifest where
  files : List (RelPath × String)
  total_size : Nat
deriving DecidableEq, Repr

/-- One tar entry body: the serde_json rendering of a record, or raw file
bytes. -/
inductive EntryContent where
  | metaJson (m : ArtifactMetadata)
  | manifestJson (m : ArtifactManifest)
  | raw (bytes : List Nat)
deriving DecidableEq, Repr

/-- One tar entry: header path plus body. -/
structure TarEntry where
  path : RelPath
  content : EntryContent
deriving DecidableEq, Repr

/-- Compressed artifact bytes, as the entry list they decompress to. -/
abbrev CompressedData := List TarEntry

/-- Byte rendering of a path. -/
def encodePath (p : RelPath) : List Nat :=
  u64le p.length ++ (p.map bincodeStr).flatten

/-- Byte rendering of a metadata record. -/
def encodeMeta (m : ArtifactMetadata) : List Nat :=
  bincodeStr m.package_name ++ bincodeStr m.task_name ++
  bincodeStr m.command ++ bincodeStr m.cache_key_hash ++
  u64le m.created_at ++ u64le m.version

/-- Byte rendering of a manifest record. -/
def encodeManifest (mf : ArtifactManifest) : List Nat :=
  u64le mf.files.length ++
  (mf.files.map (fun f => encodePath f.1 ++ bincodeStr f.2)).flatten ++
  u64le mf.total_size

/-- Bytes of an entry body, as `read_to_end` would surface them. -/
def contentBytes : EntryContent → List Nat
  | .metaJson m => encodeMeta m
  | .manifestJson m => encodeManifest m
  | .raw bytes => bytes

/-- Byte rendering of a whole compressed artifact. -/
def encodeTar (d : CompressedData) : List Nat :=
  u64le d.length ++
  (d.map (fun e => encodePath e.path ++
    u64le (contentBytes e.content).length ++ contentBytes e.content)).flatten

/-- A cached task artifact: parsed metadata and manifest plus the
compressed bytes. -/
structure Artifact where
  metadata : ArtifactMetadata
  manifest : ArtifactManifest
  compressed_data : CompressedData
deriving DecidableEq, Repr

/-- Translation of `Artifact::new`; `created_at` is the wall-clock reading,
a parameter, and `output_files` the `BTreeMap` entries in key order.  Its
I/O error branches (tar append, compression) are absent under the
round-trip contract. -/
def Artifact.new (package_name task_name command cache_key_hash : String)
    (output_files : List (RelPath × List Nat)) (created_at : Nat) :
    Artifact :=
  let files := output_files.map (fun pc => (pc.1, sha256hex pc.2))
  let total_size := (output_files.map (fun pc => pc.2.length)).sum
  let manifest : ArtifactManifest := ⟨files, total_size⟩
  let metadata : ArtifactMetadata :=
    ⟨package_name, task_name, command, cache_key_hash, created_at, 1⟩
  ⟨metadata, manifest,
    ⟨["metadata.json"], .metaJson metadata⟩ ::
    ⟨["manifest.json"], .manifestJson manifest⟩ ::
    output_files.map (fun pc => ⟨"outputs" :: pc.1, .raw pc.2⟩)⟩

/-- The entry scan of `Artifact::from_compressed`: remember the last parsed
`metadata.json` and `manifest.json` bodies, failing on an unparsable one. -/
def scanEntries : CompressedData → Option ArtifactMetadata →
    Option ArtifactManifest →
    Except PolyError (Option ArtifactMetadata × Option ArtifactManifest)
  | [], m, mf => .ok (m, mf)
  | e :: rest, m, mf =>
    if e.path = ["metadata.json"] then
      match e.content with
      | .metaJson md => scanEntries rest (some md) mf
      | _ => .error (.adapter "artifact" "Failed to parse metadata")
    else if e.path = ["manifest.json"] then
      match e.content with
      | .manifestJson mfd => scanEntries rest m (some mfd)
      | _ => .error (.adapter "artifact" "Failed to parse manifest")
    else scanEntries rest m mf

/-- Translation of `Artifact::from_compressed`: both records must be
present; the original compressed bytes are kept. -/
def Artifact.from_compressed (data : CompressedData) :
    Except PolyError Artifact :=
  match scanEntries data none none with
  | .error e => .error e
  | .ok (none, _) =>
      .error (.adapter "artifact" "Missing metadata.json in artifact")
  | .ok (some _, none) =>
      .error (.adapter "artifact" "Missing manifest.json in artifact")
  | .ok (some md, some mf) => .ok ⟨md, mf, data⟩

/-- Translation of `Artifact::extract_outputs`, as the list of files it
writes under the destination: metadata and manifest are skipped, every
entry under `outputs/` lands at its relative path, anything else is
ignored. -/
def Artifact.extract_outputs (a : Artifact) (output_dir : RelPath) :
    List (RelPath × EntryContent) :=
  a.compressed_data.foldl (fun acc e =>
    if e.path = ["metadata.json"] ∨ e.path = ["manifest.json"] then acc
    else
      match e.path with
      | "outputs" :: rest => acc ++ [(output_dir ++ rest, e.content)]
      | _ => acc) []

/-- Translation of `Artifact::hash`: hex SHA-256 of the compressed bytes. -/
def Artifact.hash (a : Artifact) : String :=
  sha256hex (encodeTar a.compressed_data)

/-- The entry walk of `ArtifactVerifier::verify_manifest`: each `outputs/`
entry must appear in the manifest with the SHA-256 of its bytes. -/
def verifyEntries (manifest : ArtifactManifest) :
    CompressedData → Except PolyError Unit
  | [] => .ok ()
  | e :: rest =>
    if e.path = ["metadata.json"] ∨ e.path = ["manifest.json"] then
      verifyEntries manifest rest
    else
      match e.path with
      | "outputs" :: rel =>
        match manifest.files.find? (fun f => decide (f.1 = rel)) with
        | none =>
            .error (.adapter "artifact-verification"
              "File in artifact but not in manifest")
        | some f =>
          if sha256hex (contentBytes e.content) = f.2 then
            verifyEntries manifest rest
          else
            .error (.adapter "artifact-verification" "File hash mismatch")
      | _ => verifyEntries manifest rest

/-- Translation of `ArtifactVerifier::verify`. -/
def ArtifactVerifier.verify (artifact : Artifact)
    (expected_hash : Option String) : Except PolyError Unit :=
  match expected_hash with
  | some expected =>
    if ¬ artifact.hash = expected then
      .error (.adapter "artifact-verification" "Artifact hash mismatch")
    else verifyEntries artifact.manifest artifact.compressed_data
  | none => verifyEntries artifact.manifest artifact.compressed_data

/-! ## Cache server (`polykit-cache/src/{server,verification,storage}.rs`) -/

/-- The sidecar record written next to each stored artifact. -/
structure StorageMetadata where
  hash : String
  size : Nat
  created_at : Nat
  cache_key_hash : String
deriving DecidableEq, Repr

/-- The server storage: committed artifacts by cache key, plus the
configured maximum artifact size (shared by storage and verifier, as
`main.rs` wires them). -/
structure ServerState where
  stored : List (String × (CompressedData × StorageMetadata))
  max_artifact_size : Nat
deriving DecidableEq, Repr

/-- Rust `char::is_ascii_hexdigit` over every character. -/
def allHex (s : String) : Bool :=
  s.data.all (fun c => decide (('0' ≤ c ∧ c ≤ '9') ∨ ('a' ≤ c ∧ c ≤ 'f') ∨
    ('A' ≤ c ∧ c ≤ 'F')))

/-- Error cases of `Storage::store_artifact` the handler distinguishes. -/
inductive StoreError where
  | invalidKey
  | tooLarge
  | alreadyExists
deriving DecidableEq, Repr

/-- Translation of `Storage::store_artifact`: hex key, size limit,
immutability, then the (atomic) write of artifact and sidecar. -/
def Storage.store_artifact (st : ServerState) (cache_key : String)
    (data : CompressedData) (hash : String) (artifact : Artifact) :
    Except StoreError ServerState :=
  if ¬ allHex cache_key then .error .invalidKey
  else if (encodeTar data).length > st.max_artifact_size then .error .tooLarge
  else if (st.stored.find? (fun e => decide (e.1 = cache_key))).isSome then
    .error .alreadyExists
  else
    .ok ⟨(cache_key, (data,
      ⟨hash, (encodeTar data).length, artifact.metadata.created_at,
       artifact.metadata.cache_key_hash⟩)) :: st.stored,
      st.max_artifact_size⟩

/-- Translation of `Verifier::verify_upload`. -/
def Verifier.verify_upload (max_artifact_size : Nat) (data : CompressedData)
    (expected_cache_key : String) : Except PolyError (Artifact × String) :=
  if (encodeTar data).length > max_artifact_size then
    .error (.adapter "verification" "Artifact size exceeds maximum")
  else
    let computed_hash := sha256hex (encodeTar data)
    match Artifact.from_compressed data with
    | .error e => .error e
    | .ok artifact =>
      match ArtifactVerifier.verify artifact (some computed_hash) with
      | .error e => .error e
      | .ok _ =>
        if ¬ artifact.metadata.cache_key_hash = expected_cache_key then
          .error (.adapter "verification" "Cache key mismatch")
        else if artifact.manifest.total_size = 0 ∧
            ¬ artifact.manifest.files = [] then
          .error (.adapter "verification"
            "Manifest has files but total_size is 0")
        else .ok (artifact, computed_hash)

/-- HTTP statuses the server emits. -/
inductive HttpStatus where
  | ok200
  | created201
  | badRequest400
  | notFound404
  | conflict409
  | payloadTooLarge413
  | unprocessable422
  | internal500
deriving DecidableEq, Repr

/-- Translation of the `upload_artifact` handler for
`PUT v1 artifacts cache_key`: key-format check (hex keys are ASCII, so
`len()` is the character count), streamed body size limit, verification
(every verifier error returns 422), then storage (conflict on an existing
key).  The response status is paired with the storage state after the
request. -/
def upload_artifact (st : ServerState) (cache_key : String)
    (body : CompressedData) : HttpStatus × ServerState :=
  if ¬ (allHex cache_key = true ∧ cache_key.length ≥ 32) then
    (.badRequest400, st)
  else if (encodeTar body).length > st.max_artifact_size then
    (.payloadTooLarge413, st)
  else
    match Verifier.verify_upload st.max_artifact_size body cache_key with
    | .error _ => (.unprocessable422, st)
    | .ok (artifact, hash) =>
      match Storage.store_artifact st cache_key body hash artifact with
      | .error .alreadyExists => (.conflict409, st)
      | .error _ => (.internal500, st)
      | .ok st2 => (.created201, st2)

/-- A small valid artifact whose internal key is 32 hex digits. -/
def c9Artifact : Artifact :=
  Artifact.new "test" "build" "echo"
    "aabbccdd11223344556677889900aabb" [(["f.txt"], [99, 49])] 7

/-- The compressed bytes of `c9Artifact`, as an upload body. -/
def c9Body : CompressedData := c9Artifact.compressed_data

/-- An empty server store with a generous size limit. -/
def c9State : ServerState := ⟨[], 1000000⟩

/-! # Theorems -/

/-! ### Validator lemmas and the C5 claims -/

theorem mem_of_mem_trimChars {c : Char} {s : List Char} (h : c ∈ trimChars s) :
    c ∈ s := by
  unfold trimChars at h
  rw [List.mem_reverse] at h
  have h2 := (List.dropWhile_sublist (l := (s.dropWhile rustIsWhitespace).reverse)
    (p := rustIsWhitespace)).mem h
  rw [List.mem_reverse] at h2
  exact (List.dropWhile_sublist (l := s) (p := rustIsWhitespace)).mem h2

theorem hasChar_of_mem {c : Char} {s : List Char} (h : c ∈ s) :
    hasChar s c = true := by
  simpa [hasChar] using h

/-- C5 counterexample: the command `a CR b` contains a carriage return after
trimming, yet `validate` accepts it, so a command with an embedded CR (and no
LF) is not rejected. -/
theorem c5_counterexample_cr_accepted :
    hasChar (trimChars ['a', '\r', 'b']) '\r' = true ∧
    CommandValidator.validate ⟨true⟩ ['a', '\r', 'b'] = .ok () := by
  constructor
  · decide
  · decide

/-- C5 (amended): `CommandValidator::validate` returns an error for every
command string whose trimmed form still contains a line feed (which covers
every CRLF); a lone carriage return without a line feed is not rejected. -/
theorem validate_rejects_trimmed_lf (v : CommandValidator) (command : List Char)
    (h : '\n' ∈ trimChars command) :
    ∃ e, CommandValidator.validate v command = .error e := by
  have htrim : hasChar (trimChars command) '\n' = true := hasChar_of_mem h
  have hcmd : hasChar command '\n' = true :=
    hasChar_of_mem (mem_of_mem_trimChars h)
  unfold CommandValidator.validate
  split_ifs with h1 h2 h3 h4 h5
  · exact ⟨_, rfl⟩
  · exact ⟨_, rfl⟩
  · exact ⟨_, rfl⟩
  · exact ⟨_, rfl⟩
  · exact ⟨_, rfl⟩
  · exact absurd (by simp [hcmd, htrim]) h4

/-- C5 witness: the amended theorem applied at the command `a LF b`. -/
theorem validate_rejects_trimmed_lf_witness :
    ('\n' ∈ trimChars ['a', '\n', 'b']) ∧
    ∃ e, CommandValidator.validate ⟨true⟩ ['a', '\n', 'b'] = .error e :=
  ⟨by decide, validate_rejects_trimmed_lf ⟨true⟩ ['a', '\n', 'b'] (by decide)⟩

/-- C1: in `execute_task_internal`, once the executor reaches the spawn (no
remote hit, no local hit), a failed `TaskResult` leaves the local task cache
unchanged — `TaskCache::put` refuses unsuccessful results — while a
successful one is stored under its triple-derived key. -/
theorem exec_internal_never_caches_failure
    (env : ExecEnv) (st : CacheState) (package : Package) (task_name : String)
    (task : Task) (r : TaskResult) (st2 : CacheState)
    (htask : package.get_task task_name = some task)
    (hrem : remoteHit env package task_name task.command = none)
    (hloc : TaskCache.get st package.name task_name task.command = none)
    (hcache : env.hasLocalCache = true)
    (hrun : execute_task_internal env st package task_name = .ok (r, st2)) :
    (r.success = false → st2 = st) ∧
    (r.success = true →
      st2 = cacheInsert st
        (TaskCache.cache_key package.name task_name task.command)
        ⟨TASK_CACHE_VERSION, package.name, task_name, task.command,
         xxh3_64 (strBytes task.command), r.success, r.stdout, r.stderr⟩) := by
  unfold execute_task_internal at hrun
  simp only [htask, hrem, hcache, if_true, hloc] at hrun
  cases hv : env.validator.validate task.command.data with
  | error e =>
    simp only [hv] at hrun
    exact absurd hrun (by simp)
  | ok u =>
    simp only [hv] at hrun
    cases hs : env.spawn package task.command with
    | error e =>
      simp only [hs] at hrun
      exact absurd hrun (by simp)
    | ok output =>
      simp only [hs] at hrun
      simp only [Except.ok.injEq, Prod.mk.injEq] at hrun
      obtain ⟨hr, hst⟩ := hrun
      subst hst
      subst hr
      constructor
      · intro hfail
        simp only at hfail
        simp [TaskCache.put, hfail]
      · intro hsucc
        simp only at hsucc
        simp [TaskCache.put, hsucc]

/-- C1 witness: the theorem applied to a concrete successful run. -/
theorem exec_internal_never_caches_failure_witness :
    (c1Result.success = false → c1StateOut = ([] : CacheState)) ∧
    (c1Result.success = true →
      c1StateOut = cacheInsert []
        (TaskCache.cache_key c1Package.name "build" c1Task.command)
        ⟨TASK_CACHE_VERSION, c1Package.name, "build", c1Task.command,
         xxh3_64 (strBytes c1Task.command), c1Result.success, c1Result.stdout,
         c1Result.stderr⟩) :=
  exec_internal_never_caches_failure c1Env [] c1Package "build" c1Task
    c1Result c1StateOut (by decide) (by decide) (by decide) rfl (by decide)

set_option maxRecDepth 100000 in
/-- C2: the claim that a failing prerequisite stops the task subgraph is
false on the code: `execute_task_with_deps` of `main`, whose prerequisite
`pre` fails, still executes `main` (its early return fires only when the
requested task itself fails, and that task is always last in the order), so
both results are returned rather than the partial list. -/
theorem prereq_failure_does_not_stop_subgraph :
    execute_task_with_deps c2Env [] c2Package "main" =
      .ok ([⟨"p", "pre", false, "", ""⟩, ⟨"p", "main", true, "", ""⟩], []) := by
  decide

set_option maxRecDepth 100000 in
/-- C3 counterexample: two invocations of the same (package, task, command)
whose full fingerprints (`CacheKey`) differ — here in the allowlisted
environment variables — share one local task cache entry: after the first
invocation is stored, the second returns the stored result although its own
spawn would have failed, so local consultation is not by the fingerprint. -/
theorem local_cache_hit_ignores_fingerprint_counterexample :
    (RemoteCache.build_cache_key c3Package "build" "echo hi" [] "pp"
        [("CC", "1")] [] "node-v20"
      ≠ RemoteCache.build_cache_key c3Package "build" "echo hi" [] "pp"
        [("CC", "2")] [] "node-v20") ∧
    execute_task_internal c3EnvA [] c3Package "build" =
      .ok (c3ResultA, c3StateA) ∧
    c3EnvB.spawn c3Package "echo hi" = .ok ⟨false, "", "boom"⟩ ∧
    execute_task_internal c3EnvB c3StateA c3Package "build" =
      .ok (c3ResultA, c3StateA) := by
  refine ⟨?_, ?_, rfl, ?_⟩
  · decide
  · decide
  · decide

/-- C3 (amended): with no remote-cache hit, the executor consults the local
task cache keyed by (package name, task name, command) only, and on a hit
returns the stored `TaskResult` directly with the cache state unchanged —
for any spawn behaviour, so no command is spawned. -/
theorem exec_internal_local_hit_returns_stored
    (env : ExecEnv) (st : CacheState) (package : Package) (task_name : String)
    (task : Task) (r : TaskResult)
    (htask : package.get_task task_name = some task)
    (hrem : remoteHit env package task_name task.command = none)
    (hcache : env.hasLocalCache = true)
    (hhit : TaskCache.get st package.name task_name task.command = some r) :
    execute_task_internal env st package task_name = .ok (r, st) := by
  unfold execute_task_internal
  simp only [htask, hrem, hcache, if_true, hhit]

/-- C3 witness: the amended theorem applied to the stored `c3` entry under
the failing-spawn environment. -/
theorem exec_internal_local_hit_returns_stored_witness :
    execute_task_internal c3EnvB c3StateA c3Package "build" =
      .ok (c3ResultA, c3StateA) :=
  exec_internal_local_hit_returns_stored c3EnvB c3StateA c3Package "build"
    ⟨"build", "echo hi", []⟩ c3ResultA (by decide) (by decide) rfl (by decide)

set_option maxRecDepth 100000 in
/-- C4: `CacheKey::hash` serializes the `input_file_hashes` map in its
iteration order (unlike `env_vars`, which has a sorting serializer), so two
keys that are equal as records — same fields, same file-hash map contents up
to iteration order — hash to different hex strings, contradicting both the
spec and the doc comment on `CacheKey::hash` calling it deterministic. -/
theorem cacheKey_hash_depends_on_map_iteration_order :
    c4KeyA.package_id = c4KeyB.package_id ∧
    c4KeyA.task_name = c4KeyB.task_name ∧
    c4KeyA.command = c4KeyB.command ∧
    c4KeyA.env_vars = c4KeyB.env_vars ∧
    c4KeyA.input_file_hashes.Perm c4KeyB.input_file_hashes ∧
    c4KeyA.dependency_graph_hash = c4KeyB.dependency_graph_hash ∧
    c4KeyA.toolchain_version = c4KeyB.toolchain_version ∧
    CacheKey.hash c4KeyA ≠ CacheKey.hash c4KeyB := by
  refine ⟨rfl, rfl, rfl, rfl, by decide, rfl, rfl, by decide⟩

theorem hasStr_iff {l : List String} {s : String} : hasStr l s = true ↔ s ∈ l := by
  simp [hasStr]

/-- The DFS loop of `all_dependents` only ever appends names it does not
already hold, so its result set stays duplicate-free. -/
theorem allDependentsLoop_nodup (g : DependencyGraph) :
    ∀ (fuel : Nat) (result stack out : List String),
    allDependentsLoop g fuel result stack = .ok out →
    result.Nodup → out.Nodup := by
  intro fuel
  induction fuel with
  | zero =>
    intro result stack out h hn
    unfold allDependentsLoop at h
    simp only [Except.ok.injEq] at h
    rwa [← h]
  | succ fuel ih =>
    intro result stack out h hn
    cases stack with
    | nil =>
      unfold allDependentsLoop at h
      simp only [Except.ok.injEq] at h
      rwa [← h]
    | cons current rest =>
      unfold allDependentsLoop at h
      by_cases hc : hasStr result current = true
      · rw [if_pos hc] at h
        exact ih result rest out h hn
      · rw [if_neg hc] at h
        cases hd : g.dependents current with
        | error e =>
          simp only [hd] at h
          exact absurd h (by simp)
        | ok direct =>
          simp only [hd] at h
          refine ih _ _ _ h ?_
          rw [List.nodup_append]
          refine ⟨hn, List.nodup_singleton _, ?_⟩
          intro x hx hx2
          simp only [List.mem_singleton] at hx2
          subst hx2
          exact hc (hasStr_iff.mpr hx)

/-- C10: `all_dependents(p)` never contains `p` itself — the DFS result has
`p` removed before it is memoised and returned — and the memoised second
call returns the same `p`-free set. -/
theorem all_dependents_never_contains_self
    (g : DependencyGraph) (p : String)
    (r1 : List String) (c1 : List (String × List String))
    (r2 : List String) (c2 : List (String × List String))
    (h1 : allDependentsMemo g [] p = .ok (r1, c1))
    (h2 : allDependentsMemo g c1 p = .ok (r2, c2)) :
    p ∉ r1 ∧ p ∉ r2 ∧ r2 = r1 := by
  unfold allDependentsMemo at h1
  simp only [List.find?] at h1
  cases hc : computeAllDependents g p with
  | error e =>
    simp only [hc] at h1
    exact absurd h1 (by simp)
  | ok res =>
    simp only [hc, Except.ok.injEq, Prod.mk.injEq] at h1
    obtain ⟨hr1, hc1⟩ := h1
    have hp1 : p ∉ res := by
      unfold computeAllDependents at hc
      cases hl : allDependentsLoop g (allDependentsFuel g) [] [p] with
      | error e =>
        simp only [hl] at hc
        exact absurd hc (by simp)
      | ok louts =>
        simp only [hl, Except.ok.injEq] at hc
        have hnd : louts.Nodup :=
          allDependentsLoop_nodup g _ _ _ _ hl (List.nodup_nil)
        rw [← hc]
        intro hmem
        exact ((hnd.mem_erase_iff).mp hmem).1 rfl
    subst hr1
    subst hc1
    unfold allDependentsMemo at h2
    simp [List.find?] at h2
    obtain ⟨hr2, -⟩ := h2
    subst hr2
    exact ⟨hp1, hp1, rfl⟩

/-- C10 witness: the theorem applied to the three-package chain at `a`,
whose dependents set is computed on the first call and memoised on the
second. -/
theorem all_dependents_never_contains_self_witness :
    "a" ∉ (["b", "c"] : List String) ∧ "a" ∉ (["b", "c"] : List String) ∧
    (["b", "c"] : List String) = ["b", "c"] :=
  all_dependents_never_contains_self c10Graph "a" ["b", "c"]
    [("a", ["b", "c"])] ["b", "c"] [("a", ["b", "c"])] (by decide) (by decide)

theorem idxOf_lt_length {α : Type} [DecidableEq α] {l : List α} {x : α}
    (h : x ∈ l) : idxOf l x < l.length :=
  List.findIdx_lt_length.mpr ⟨x, h, by simp⟩

theorem idxOf_append_left {α : Type} [DecidableEq α] {l : List α}
    (l2 : List α) {x : α} (h : x ∈ l) : idxOf (l ++ l2) x = idxOf l x := by
  unfold idxOf
  rw [List.findIdx_append]
  exact if_pos (idxOf_lt_length h)

theorem idxOf_append_not_mem {α : Type} [DecidableEq α] {l1 : List α}
    (l2 : List α) {x : α} (h : x ∉ l1) :
    idxOf (l1 ++ l2) x = idxOf l2 x + l1.length := by
  unfold idxOf
  rw [List.findIdx_append]
  have hlen : l1.findIdx (fun y => decide (y = x)) = l1.length :=
    List.findIdx_eq_length_of_false (fun y hy => by
      simp only [decide_eq_false_iff_not]
      intro hxy
      exact h (hxy ▸ hy))
  rw [hlen, if_neg (Nat.lt_irrefl _)]

theorem idxOf_append_self {α : Type} [DecidableEq α] {l : List α} {x : α}
    (h : x ∉ l) : idxOf (l ++ [x]) x = l.length := by
  rw [idxOf_append_not_mem _ h]
  simp [idxOf, List.findIdx_cons]

theorem kahnAux_spec (edges : List (Nat × Nat)) :
    ∀ (fuel : Nat) (placed remaining out : List Nat),
    kahnAux edges fuel placed remaining = some out →
    (placed ++ remaining).Nodup →
    GoodOrder edges placed →
    out.Perm (placed ++ remaining) ∧ out.Nodup ∧ GoodOrder edges out := by
  intro fuel
  induction fuel with
  | zero =>
    intro placed remaining out h hn hg
    unfold kahnAux at h
    by_cases hr : remaining = []
    · subst hr
      rw [if_pos rfl] at h
      simp only [Option.some.injEq] at h
      subst h
      exact ⟨by simp, by simpa using hn, hg⟩
    · rw [if_neg hr] at h
      cases h
  | succ fuel ih =>
    intro placed remaining out h hn hg
    unfold kahnAux at h
    cases hf : remaining.find? (depsPlaced edges placed) with
    | none =>
      rw [hf] at h
      by_cases hr : remaining = []
      · subst hr
        rw [if_pos rfl] at h
        simp only [Option.some.injEq] at h
        subst h
        exact ⟨by simp, by simpa using hn, hg⟩
      · rw [if_neg hr] at h
        cases h
    | some i =>
      rw [hf] at h
      have hi_mem : i ∈ remaining := List.mem_of_find?_eq_some hf
      have hi_placed : depsPlaced edges placed i = true := List.find?_some hf
      have hperm_r : remaining.Perm (i :: remaining.erase i) :=
        List.perm_cons_erase hi_mem
      have hperm : ((placed ++ [i]) ++ remaining.erase i).Perm
          (placed ++ remaining) := by
        rw [List.append_assoc]
        exact List.Perm.append_left placed hperm_r.symm
      have hnodup2 : ((placed ++ [i]) ++ remaining.erase i).Nodup :=
        (hperm.nodup_iff).mpr hn
      have hi_not_placed : i ∉ placed := by
        rcases List.nodup_append.mp hn with ⟨-, -, hdisj⟩
        intro hip
        exact hdisj hip hi_mem
      have hg2 : GoodOrder edges (placed ++ [i]) := by
        intro e he h1mem
        rcases List.mem_append.mp h1mem with h1p | h1i
        · rcases hg e he h1p with ⟨h2p, hlt⟩
          refine ⟨List.mem_append_left _ h2p, ?_⟩
          rw [idxOf_append_left _ h2p, idxOf_append_left _ h1p]
          exact hlt
        · have h1i : e.1 = i := by simpa using h1i
          have h2p : e.2 ∈ placed := by
            have hall := (List.all_eq_true.mp hi_placed) e he
            rw [if_pos h1i] at hall
            simpa [List.any_eq_true] using hall
          refine ⟨List.mem_append_left _ h2p, ?_⟩
          rw [idxOf_append_left _ h2p, h1i, idxOf_append_self hi_not_placed]
          exact idxOf_lt_length h2p
      rcases ih (placed ++ [i]) (remaining.erase i) out h hnodup2 hg2 with
        ⟨hp, hnd, hgo⟩
      exact ⟨hp.trans hperm, hnd, hgo⟩

theorem topoSortRev_spec {edges : List (Nat × Nat)} {n : Nat}
    {out : List Nat} (h : topoSortRev edges n = some out) :
    out.Perm (List.range n) ∧ out.Nodup ∧ GoodOrder edges out := by
  have hs := kahnAux_spec edges n [] (List.range n) out h
    (by simpa using List.nodup_range n) (by intro e he h1; cases h1)
  simpa using hs

theorem nameToNodeAux_sound :
    ∀ (l : List (Nat × Package)) {name : String} {j : Nat},
    nameToNodeAux l name = some j → ∃ p, (j, p) ∈ l ∧ p.name = name := by
  intro l
  induction l with
  | nil => intro name j h; cases h
  | cons ip rest ih =>
    intro name j h
    unfold nameToNodeAux at h
    cases hr : nameToNodeAux rest name with
    | some j2 =>
      rw [hr] at h
      simp only [Option.some.injEq] at h
      subst h
      rcases ih hr with ⟨p, hp, hpn⟩
      exact ⟨p, List.mem_cons_of_mem _ hp, hpn⟩
    | none =>
      rw [hr] at h
      by_cases hname : ip.2.name = name
      · rw [if_pos hname] at h
        simp only [Option.some.injEq] at h
        subst h
        exact ⟨ip.2, by simp, hname⟩
      · rw [if_neg hname] at h
        cases h

theorem nameToNodeAux_isSome :
    ∀ (l : List (Nat × Package)) {name : String} {i : Nat} {p : Package},
    (i, p) ∈ l → p.name = name → ∃ j, nameToNodeAux l name = some j := by
  intro l
  induction l with
  | nil => intro name i p h; cases h
  | cons ip rest ih =>
    intro name i p hm hn
    unfold nameToNodeAux
    cases hr : nameToNodeAux rest name with
    | some j2 => exact ⟨j2, rfl⟩
    | none =>
      rcases List.mem_cons.mp hm with heq | hrest
      · refine ⟨ip.1, ?_⟩
        rw [if_pos (by rw [← heq] at *; exact hn)]
      · rcases ih hrest hn with ⟨j, hj⟩
        rw [hj] at hr
        cases hr

theorem nameToNode_sound {pkgs : List Package} {name : String} {j : Nat}
    (h : nameToNode pkgs name = some j) :
    ∃ p, pkgs[j]? = some p ∧ p.name = name := by
  rcases nameToNodeAux_sound _ h with ⟨p, hp, hpn⟩
  exact ⟨p, (List.mk_mem_enum_iff_getElem?).mp hp, hpn⟩

theorem nameToNode_unique {pkgs : List Package}
    (hnodup : (pkgs.map Package.name).Nodup) {i : Nat} {p : Package}
    (h : pkgs[i]? = some p) : nameToNode pkgs p.name = some i := by
  have hm : (i, p) ∈ pkgs.enum := (List.mk_mem_enum_iff_getElem?).mpr h
  rcases nameToNodeAux_isSome _ hm rfl with ⟨j, hj⟩
  rcases nameToNode_sound hj with ⟨q, hq, hqn⟩
  have hi_lt : i < pkgs.length := by
    rcases List.getElem?_eq_some_iff.mp h with ⟨hlen, -⟩
    exact hlen
  have hj_lt : j < pkgs.length := by
    rcases List.getElem?_eq_some_iff.mp hq with ⟨hlen, -⟩
    exact hlen
  have hnames_i : (pkgs.map Package.name)[i]? = some p.name := by
    rw [List.getElem?_map, h]
    rfl
  have hnames_j : (pkgs.map Package.name)[j]? = some p.name := by
    rw [List.getElem?_map, hq]
    simpa using hqn
  have hij : j = i :=
    List.getElem?_inj (by simpa using hj_lt) hnodup (hnames_j.trans hnames_i.symm)
  rw [← hij]
  exact hj

theorem idName_eq {pkgs : List Package} {j : Nat} {p : Package}
    (h : pkgs[j]? = some p) : idName pkgs j = p.name := by
  unfold idName
  rw [List.getD_eq_getElem?_getD, List.getElem?_map, h]
  rfl

theorem depEdges_forward (pkgs : List Package) (i : Nat) :
    ∀ (deps : List String) (es : List (Nat × Nat)) (d : String),
    depEdges pkgs i deps = .ok es → d ∈ deps →
    ∃ j, nameToNode pkgs d = some j ∧ (i, j) ∈ es := by
  intro deps
  induction deps with
  | nil => intro es d h hd; cases hd
  | cons d0 rest ih =>
    intro es d h hd
    unfold depEdges at h
    cases hn : nameToNode pkgs d0 with
    | none => rw [hn] at h; cases h
    | some j0 =>
      rw [hn] at h
      cases hr : depEdges pkgs i rest with
      | error e => rw [hr] at h; cases h
      | ok es0 =>
        rw [hr] at h
        simp only [Except.ok.injEq] at h
        subst h
        rcases List.mem_cons.mp hd with heq | hrest
        · subst heq
          exact ⟨j0, hn, by simp⟩
        · rcases ih es0 d hr hrest with ⟨j, hj, hm⟩
          exact ⟨j, hj, by simp [hm]⟩

theorem depEdges_backward (pkgs : List Package) (i : Nat) :
    ∀ (deps : List String) (es : List (Nat × Nat)) (e : Nat × Nat),
    depEdges pkgs i deps = .ok es → e ∈ es →
    e.1 = i ∧ ∃ d ∈ deps, nameToNode pkgs d = some e.2 := by
  intro deps
  induction deps with
  | nil =>
    intro es e h he
    unfold depEdges at h
    simp only [Except.ok.injEq] at h
    subst h
    cases he
  | cons d0 rest ih =>
    intro es e h he
    unfold depEdges at h
    cases hn : nameToNode pkgs d0 with
    | none => rw [hn] at h; cases h
    | some j0 =>
      rw [hn] at h
      cases hr : depEdges pkgs i rest with
      | error e2 => rw [hr] at h; cases h
      | ok es0 =>
        rw [hr] at h
        simp only [Except.ok.injEq] at h
        subst h
        rcases List.mem_cons.mp he with heq | hrest
        · subst heq
          exact ⟨rfl, d0, by simp, hn⟩
        · rcases ih es0 e hr hrest with ⟨h1, d, hd, hd2⟩
          exact ⟨h1, d, by simp [hd], hd2⟩

theorem buildEdgesAux_forward (pkgs : List Package) :
    ∀ (l : List (Nat × Package)) (es : List (Nat × Nat)) (i : Nat)
    (p : Package) (d : String),
    buildEdgesAux pkgs l = .ok es → (i, p) ∈ l → d ∈ p.deps →
    ∃ j, nameToNode pkgs d = some j ∧ (i, j) ∈ es := by
  intro l
  induction l with
  | nil => intro es i p d h hm; cases hm
  | cons ip rest ih =>
    intro es i p d h hm hd
    unfold buildEdgesAux at h
    cases h1 : depEdges pkgs ip.1 ip.2.deps with
    | error e => rw [h1] at h; cases h
    | ok es1 =>
      rw [h1] at h
      cases h2 : buildEdgesAux pkgs rest with
      | error e => rw [h2] at h; cases h
      | ok es2 =>
        rw [h2] at h
        simp only [Except.ok.injEq] at h
        subst h
        rcases List.mem_cons.mp hm with heq | hrest
        · have hip1 : ip.1 = i := by rw [← heq]
          have hip2 : ip.2 = p := by rw [← heq]
          rw [hip1, hip2] at h1
          rcases depEdges_forward pkgs i p.deps es1 d h1 hd with ⟨j, hj, hjm⟩
          exact ⟨j, hj, List.mem_append_left _ hjm⟩
        · rcases ih es2 i p d h2 hrest hd with ⟨j, hj, hjm⟩
          exact ⟨j, hj, List.mem_append_right _ hjm⟩

theorem buildEdgesAux_backward (pkgs : List Package) :
    ∀ (l : List (Nat × Package)) (es : List (Nat × Nat)) (e : Nat × Nat),
    buildEdgesAux pkgs l = .ok es → e ∈ es →
    ∃ p, (e.1, p) ∈ l ∧ ∃ d ∈ p.deps, nameToNode pkgs d = some e.2 := by
  intro l
  induction l with
  | nil =>
    intro es e h he
    unfold buildEdgesAux at h
    simp only [Except.ok.injEq] at h
    subst h
    cases he
  | cons ip rest ih =>
    intro es e h he
    unfold buildEdgesAux at h
    cases h1 : depEdges pkgs ip.1 ip.2.deps with
    | error e2 => rw [h1] at h; cases h
    | ok es1 =>
      rw [h1] at h
      cases h2 : buildEdgesAux pkgs rest with
      | error e2 => rw [h2] at h; cases h
      | ok es2 =>
        rw [h2] at h
        simp only [Except.ok.injEq] at h
        subst h
        rcases List.mem_append.mp he with h1m | h2m
        · rcases depEdges_backward pkgs ip.1 ip.2.deps es1 e h1 h1m with
            ⟨he1, d, hd, hd2⟩
          refine ⟨ip.2, ?_, d, hd, hd2⟩
          rw [he1]
          exact List.mem_cons_self ..
        · rcases ih es2 e h2 h2m with ⟨p, hp, hrest2⟩
          exact ⟨p, List.mem_cons_of_mem _ hp, hrest2⟩

theorem idxOf_map_inj {α β : Type} [DecidableEq α] [DecidableEq β]
    (f : α → β) :
    ∀ (l : List α) (x : α), (∀ a ∈ l, f a = f x → a = x) →
    idxOf (l.map f) (f x) = idxOf l x := by
  intro l
  induction l with
  | nil => intro x h; rfl
  | cons a rest ih =>
    intro x hinj
    simp only [List.map_cons]
    unfold idxOf
    rw [List.findIdx_cons, List.findIdx_cons]
    simp only [cond_eq_if, decide_eq_true_eq]
    by_cases hax : a = x
    · subst hax
      rw [if_pos rfl, if_pos rfl]
    · have hfa : ¬ f a = f x := fun hf => hax (hinj a (by simp) hf)
      rw [if_neg hfa, if_neg hax]
      have := ih x (fun b hb => hinj b (List.mem_cons_of_mem _ hb))
      unfold idxOf at this
      rw [this]

theorem idName_inj {pkgs : List Package}
    (hnodup : (pkgs.map Package.name).Nodup) {c x : Nat}
    (hc : c < pkgs.length) (hx : x < pkgs.length)
    (h : idName pkgs c = idName pkgs x) : c = x := by
  have hlc : c < (pkgs.map Package.name).length := by simpa using hc
  have hlx : x < (pkgs.map Package.name).length := by simpa using hx
  have hgc : (pkgs.map Package.name)[c]? = some (idName pkgs c) := by
    unfold idName
    rw [List.getD_eq_getElem?_getD, List.getElem?_eq_getElem hlc]
    rfl
  have hgx : (pkgs.map Package.name)[x]? = some (idName pkgs x) := by
    unfold idName
    rw [List.getD_eq_getElem?_getD, List.getElem?_eq_getElem hlx]
    rfl
  exact List.getElem?_inj hlc hnodup (by rw [hgc, hgx, h])

/-- C6: in a successfully constructed graph over uniquely named packages,
`topological_order()` lists every dependency strictly before each package
that depends on it. -/
theorem topological_order_deps_before_dependents
    (pkgs : List Package) (g : DependencyGraph)
    (hnew : DependencyGraph.new pkgs = .ok g)
    (hnodup : (pkgs.map Package.name).Nodup)
    (a : Package) (ha : a ∈ pkgs) (b : Package) (hb : b ∈ pkgs)
    (hdep : b.name ∈ a.deps) :
    idxOf g.topological_order b.name < idxOf g.topological_order a.name := by
  unfold DependencyGraph.new at hnew
  cases hbe : buildEdges pkgs with
  | error e =>
    rw [hbe] at hnew
    exact absurd hnew (by simp)
  | ok edges =>
    simp only [hbe] at hnew
    cases hts : topoSortRev edges pkgs.length with
    | none =>
      simp only [hts] at hnew
      exact absurd hnew (by simp)
    | some order =>
      simp only [hts, Except.ok.injEq] at hnew
      subst hnew
      obtain ⟨hperm, hnodup_ord, hgood⟩ := topoSortRev_spec hts
      obtain ⟨ia, hia⟩ := List.mem_iff_getElem?.mp ha
      have hmema : (ia, a) ∈ pkgs.enum := (List.mk_mem_enum_iff_getElem?).mpr hia
      obtain ⟨j, hj, hedge⟩ :=
        buildEdgesAux_forward pkgs pkgs.enum edges ia a b.name hbe hmema hdep
      obtain ⟨q, hq, hqname⟩ := nameToNode_sound hj
      have hia_lt : ia < pkgs.length := (List.getElem?_eq_some_iff.mp hia).1
      have hj_lt : j < pkgs.length := (List.getElem?_eq_some_iff.mp hq).1
      have hia_mem : ia ∈ order := (hperm.mem_iff).mpr (List.mem_range.mpr hia_lt)
      obtain ⟨hj_mem, hlt⟩ := hgood (ia, j) hedge hia_mem
      have hnamea : idName pkgs ia = a.name := idName_eq hia
      have hnameb : idName pkgs j = b.name := by rw [idName_eq hq, hqname]
      have horder_lt : ∀ c ∈ order, c < pkgs.length := by
        intro c hcm
        exact List.mem_range.mp ((hperm.mem_iff).mp hcm)
      have hmapb : idxOf (order.map (idName pkgs)) (idName pkgs j) =
          idxOf order j :=
        idxOf_map_inj (idName pkgs) order j
          (fun c hcm hceq => idName_inj hnodup (horder_lt c hcm) hj_lt hceq)
      have hmapa : idxOf (order.map (idName pkgs)) (idName pkgs ia) =
          idxOf order ia :=
        idxOf_map_inj (idName pkgs) order ia
          (fun c hcm hceq => idName_inj hnodup (horder_lt c hcm) hia_lt hceq)
      show idxOf (order.map (idName pkgs)) b.name <
        idxOf (order.map (idName pkgs)) a.name
      rw [← hnamea, ← hnameb, hmapa, hmapb]
      exact hlt

theorem pushAtLevel_getD :
    ∀ (levels : List (List Nat)) (lvl pid : Nat), ∀ (k : Nat),
    (pushAtLevel levels lvl pid).getD k [] =
      if k = lvl then levels.getD k [] ++ [pid] else levels.getD k [] := by
  intro levels lvl pid
  induction levels, lvl, pid using pushAtLevel.induct with
  | case1 pid =>
    intro k
    cases k with
    | zero => simp [pushAtLevel]
    | succ k2 => simp [pushAtLevel]
  | case2 lvl pid ih =>
    intro k
    cases k with
    | zero => simp [pushAtLevel]
    | succ k2 =>
      simp only [pushAtLevel, List.getD_cons_succ, ih k2, List.getD_nil]
      by_cases hk : k2 = lvl
      · rw [if_pos hk, if_pos (by omega)]
      · rw [if_neg hk, if_neg (by omega)]
  | case3 lv rest pid =>
    intro k
    cases k with
    | zero => simp [pushAtLevel]
    | succ k2 => simp [pushAtLevel]
  | case4 lv rest lvl pid ih =>
    intro k
    cases k with
    | zero => simp [pushAtLevel]
    | succ k2 =>
      simp only [pushAtLevel, List.getD_cons_succ, ih k2]
      by_cases hk : k2 = lvl
      · rw [if_pos hk, if_pos (by omega)]
      · rw [if_neg hk, if_neg (by omega)]

theorem pushAtLevel_flatten_perm :
    ∀ (levels : List (List Nat)) (lvl pid : Nat),
    (pushAtLevel levels lvl pid).flatten.Perm (pid :: levels.flatten) := by
  intro levels lvl pid
  induction levels, lvl, pid using pushAtLevel.induct with
  | case1 pid => simp [pushAtLevel]
  | case2 lvl pid ih => simpa [pushAtLevel] using ih
  | case3 lv rest pid =>
    simp only [pushAtLevel, List.flatten_cons, List.append_assoc,
      List.singleton_append]
    exact List.perm_middle
  | case4 lv rest lvl pid ih =>
    simp only [pushAtLevel, List.flatten_cons]
    exact ((ih.append_left lv).trans List.perm_middle)

theorem listMax?_perm : ∀ {l1 l2 : List Nat}, l1.Perm l2 →
    listMax? l1 = listMax? l2 := by
  intro l1 l2 h
  induction h with
  | nil => rfl
  | cons a h ih => simp [listMax?, ih]
  | swap a b l =>
    show listMax? (b :: a :: l) = listMax? (a :: b :: l)
    unfold listMax?
    unfold listMax?
    cases hm : listMax? l with
    | none => simp [Nat.max_comm]
    | some m =>
      simp only [Option.some.injEq, Nat.max_def]
      split_ifs <;> omega
  | trans h1 h2 ih1 ih2 => exact ih1.trans ih2

theorem listMax?_ge {l : List Nat} {x : Nat} (h : x ∈ l) :
    ∃ m, listMax? l = some m ∧ x ≤ m := by
  induction l with
  | nil => cases h
  | cons a rest ih =>
    unfold listMax?
    cases hm : listMax? rest with
    | none =>
      rcases List.mem_cons.mp h with hx | hx
      · exact ⟨a, rfl, Nat.le_of_eq hx⟩
      · rcases ih hx with ⟨m, hm2, -⟩
        rw [hm2] at hm
        cases hm
    | some m =>
      rcases List.mem_cons.mp h with hx | hx
      · exact ⟨Nat.max a m, rfl, hx ▸ Nat.le_max_left a m⟩
      · rcases ih hx with ⟨m2, hm2, hle⟩
        have hmm : m2 = m := by
          rw [hm2] at hm
          exact Option.some.inj hm
        subst hmm
        exact ⟨Nat.max a m2, rfl, Nat.le_trans hle (Nat.le_max_right a m2)⟩

theorem lookupLevel_cons (m : List (Nat × Nat)) (i l x : Nat) :
    lookupLevel ((i, l) :: m) x = if i = x then some l else lookupLevel m x := by
  unfold lookupLevel
  rw [List.find?_cons]
  by_cases h : i = x
  · simp [h]
  · simp [h]

theorem mem_outNeighbors {edges : List (Nat × Nat)} {i q : Nat} :
    q ∈ outNeighbors edges i ↔ (i, q) ∈ edges := by
  unfold outNeighbors
  rw [List.mem_reverse]
  constructor
  · intro h
    rcases List.mem_map.mp h with ⟨e, hef, heq⟩
    rcases List.mem_filter.mp hef with ⟨hee, hcond⟩
    have h1 : e.1 = i := by simpa using hcond
    have he : e = (i, q) := by
      cases e
      simp_all
    rwa [he] at hee
  · intro h
    exact List.mem_map.mpr ⟨(i, q), List.mem_filter.mpr ⟨h, by simp⟩, rfl⟩

theorem levelStep_inv {edges : List (Nat × Nat)} {processed : List Nat}
    {levels : List (List Nat)} {lmap : List (Nat × Nat)} {pid : Nat}
    (inv : LevelInv edges processed levels lmap)
    (hnew : pid ∉ processed)
    (hcl : ∀ q ∈ outNeighbors edges pid, q ∈ processed) :
    LevelInv edges (processed ++ [pid])
      (levelStep edges (levels, lmap) pid).1
      (levelStep edges (levels, lmap) pid).2 := by
  have hpid_none : lookupLevel lmap pid = none := by
    cases hl : lookupLevel lmap pid with
    | none => rfl
    | some l =>
      exact absurd ((inv.keys pid).mp (by rw [hl]; rfl)) hnew
  set lvl := (if (outNeighbors edges pid).isEmpty then 0
    else
      match listMax? ((outNeighbors edges pid).filterMap (lookupLevel lmap)) with
      | some m => m + 1
      | none => 0) with hlvl
  have hstep : levelStep edges (levels, lmap) pid =
      (pushAtLevel levels lvl pid, (pid, lvl) :: lmap) := rfl
  rw [hstep]
  have hlook : ∀ x, lookupLevel ((pid, lvl) :: lmap) x =
      if pid = x then some lvl else lookupLevel lmap x :=
    fun x => lookupLevel_cons lmap pid lvl x
  have hstable : ∀ i, i ∈ processed →
      (outNeighbors edges i).filterMap (lookupLevel ((pid, lvl) :: lmap)) =
      (outNeighbors edges i).filterMap (lookupLevel lmap) := by
    intro i hi
    apply List.filterMap_congr
    intro q hq
    have hqp : q ∈ processed := inv.closed i hi q hq
    rw [hlook q, if_neg (fun hh => hnew (by rw [hh]; exact hqp))]
  have hstable_pid :
      (outNeighbors edges pid).filterMap (lookupLevel ((pid, lvl) :: lmap)) =
      (outNeighbors edges pid).filterMap (lookupLevel lmap) := by
    apply List.filterMap_congr
    intro q hq
    have hqp : q ∈ processed := hcl q hq
    rw [hlook q, if_neg (fun hh => hnew (by rw [hh]; exact hqp))]
  refine ⟨?_, ?_, ?_, ?_, ?_⟩
  · intro i
    rw [hlook i]
    by_cases hip : pid = i
    · subst hip
      simp
    · rw [if_neg hip]
      rw [inv.keys i]
      constructor
      · intro h
        exact List.mem_append_left _ h
      · intro h
        rcases List.mem_append.mp h with h | h
        · exact h
        · have hip2 : i = pid := by simpa using h
          exact absurd hip2.symm hip
  · intro i l hl
    rw [hlook i] at hl
    by_cases hip : pid = i
    · subst hip
      rw [if_pos rfl] at hl
      have hll : l = lvl := (Option.some.inj hl).symm
      subst hll
      rw [hstable_pid]
    · rw [if_neg hip] at hl
      rw [hstable i ((inv.keys i).mp (by rw [hl]; rfl))]
      exact inv.speclvl i l hl
  · intro i hi q hq
    rcases List.mem_append.mp hi with hi | hi
    · exact List.mem_append_left _ (inv.closed i hi q hq)
    · have hip : i = pid := by simpa using hi
      subst hip
      exact List.mem_append_left _ (hcl q hq)
  · intro k x
    rw [pushAtLevel_getD levels lvl pid k, hlook x]
    by_cases hxp : pid = x
    · subst hxp
      have hnot : ¬ pid ∈ levels.getD k [] := by
        intro hmem2
        have := (inv.mem k pid).mp hmem2
        rw [hpid_none] at this
        cases this
      by_cases hk : k = lvl
      · subst hk
        rw [if_pos rfl, if_pos rfl]
        simp [hnot]
      · rw [if_neg hk, if_pos rfl]
        constructor
        · intro h
          exact absurd h hnot
        · intro h
          exact absurd (Option.some.inj h).symm hk
    · rw [if_neg hxp]
      by_cases hk : k = lvl
      · subst hk
        rw [if_pos rfl]
        rw [← inv.mem lvl x]
        constructor
        · intro h
          rcases List.mem_append.mp h with h | h
          · exact h
          · have hxp2 : x = pid := by simpa using h
            exact absurd hxp2.symm hxp
        · intro h
          exact List.mem_append_left _ h
      · rw [if_neg hk]
        exact inv.mem k x
  · refine ((pushAtLevel_flatten_perm levels lvl pid).trans ?_)
    refine ((inv.perm.cons pid).trans ?_)
    exact (List.perm_append_singleton pid processed).symm

theorem levelInv_nil (edges : List (Nat × Nat)) : LevelInv edges [] [] [] := by
  refine ⟨?_, ?_, ?_, ?_, ?_⟩
  · intro i
    simp [lookupLevel]
  · intro i l hl
    cases hl
  · intro i hi
    cases hi
  · intro k x
    simp [lookupLevel]
  · simp

theorem computeLevels_fold_inv (edges : List (Nat × Nat)) (order : List Nat)
    (hnodup : order.Nodup) (hgood : GoodOrder edges order) :
    ∀ (suffix pre : List Nat) (levels : List (List Nat))
    (lmap : List (Nat × Nat)),
    order = pre ++ suffix →
    LevelInv edges pre levels lmap →
    LevelInv edges order
      (suffix.foldl (levelStep edges) (levels, lmap)).1
      (suffix.foldl (levelStep edges) (levels, lmap)).2 := by
  intro suffix
  induction suffix with
  | nil =>
    intro pre levels lmap heq inv
    rw [heq] at *
    simpa using inv
  | cons pid rest ih =>
    intro pre levels lmap heq inv
    have hnew2 : pid ∉ pre := by
      rw [heq] at hnodup
      rcases List.nodup_append.mp hnodup with ⟨-, -, hdisj⟩
      intro hp
      exact hdisj hp (by simp)
    have hidx_pid : idxOf order pid = pre.length := by
      rw [heq, idxOf_append_not_mem _ hnew2]
      simp [idxOf, List.findIdx_cons]
    have hcl : ∀ q ∈ outNeighbors edges pid, q ∈ pre := by
      intro q hq
      have hedge : (pid, q) ∈ edges := mem_outNeighbors.mp hq
      have hpid_mem : pid ∈ order := by rw [heq]; simp
      obtain ⟨hq_mem, hlt⟩ := hgood (pid, q) hedge hpid_mem
      have hlt2 : idxOf order q < idxOf order pid := hlt
      by_contra hq_pre
      have hge : idxOf order q ≥ pre.length := by
        rw [heq, idxOf_append_not_mem _ hq_pre]
        omega
      omega
    have hstep := levelStep_inv inv hnew2 hcl
    have heq2 : order = (pre ++ [pid]) ++ rest := by
      rw [heq, List.append_assoc]
      rfl
    have hind := ih (pre ++ [pid])
      (levelStep edges (levels, lmap) pid).1
      (levelStep edges (levels, lmap) pid).2 heq2 hstep
    simpa using hind

theorem computeLevels_spec (edges : List (Nat × Nat)) (order : List Nat)
    (hnodup : order.Nodup) (hgood : GoodOrder edges order) :
    ∃ lmap, LevelInv edges order (computeLevels edges order) lmap := by
  refine ⟨(order.foldl (levelStep edges) ([], [])).2, ?_⟩
  have hres := computeLevels_fold_inv edges order hnodup hgood order [] [] []
    (by simp) (levelInv_nil edges)
  simpa [computeLevels] using hres

theorem getD_map_nil {L : List (List Nat)} {f : Nat → String} {k : Nat} :
    (L.map (fun lv => lv.map f)).getD k [] = (L.getD k []).map f := by
  rw [List.getD_eq_getElem?_getD, List.getD_eq_getElem?_getD, List.getElem?_map]
  cases L[k]? <;> rfl

theorem count_map_inj {l : List Nat} {f : Nat → String} {x : Nat}
    (hinj : ∀ a ∈ l, f a = f x → a = x) :
    (l.map f).count (f x) = l.count x := by
  induction l with
  | nil => rfl
  | cons a rest ih =>
    rw [List.map_cons, List.count_cons, List.count_cons]
    simp only [beq_iff_eq]
    rw [ih (fun b hb => hinj b (List.mem_cons_of_mem _ hb))]
    by_cases hax : a = x
    · rw [if_pos (show f a = f x by rw [hax]), if_pos hax]
    · rw [if_neg (fun hf => hax (hinj a (by simp) hf)), if_neg hax]

theorem levelIdx_eq_some {L : List (List String)} {x : String} {k : Nat}
    (hk : k < L.length) (hmem : x ∈ L.getD k [])
    (hnot : ∀ j, j < k → x ∉ L.getD j []) :
    levelIdx L x = some k := by
  induction L generalizing k with
  | nil => cases hk
  | cons lv rest ih =>
    unfold levelIdx
    rw [List.findIdx?_cons]
    cases k with
    | zero =>
      rw [if_pos (hasStr_iff.mpr (by simpa using hmem))]
    | succ k2 =>
      have h0 : x ∉ lv := by simpa using hnot 0 (Nat.succ_pos k2)
      rw [if_neg (fun hh => h0 (hasStr_iff.mp hh))]
      rw [List.findIdx?_succ]
      have hrec : levelIdx rest x = some k2 := by
        refine ih (by simpa using hk) (by simpa using hmem) ?_
        intro j hj
        have := hnot (j + 1) (by omega)
        simpa using this
      unfold levelIdx at hrec
      rw [hrec]
      rfl

theorem depEdges_targets (pkgs : List Package) (i : Nat) :
    ∀ (deps : List String) (dei : List (Nat × Nat)),
    depEdges pkgs i deps = .ok dei →
    dei.map Prod.snd = deps.filterMap (nameToNode pkgs) := by
  intro deps
  induction deps with
  | nil =>
    intro dei h
    unfold depEdges at h
    simp only [Except.ok.injEq] at h
    subst h
    rfl
  | cons d0 rest ih =>
    intro dei h
    unfold depEdges at h
    cases hn : nameToNode pkgs d0 with
    | none => rw [hn] at h; cases h
    | some j0 =>
      rw [hn] at h
      cases hr : depEdges pkgs i rest with
      | error e => rw [hr] at h; cases h
      | ok es0 =>
        rw [hr] at h
        simp only [Except.ok.injEq] at h
        subst h
        rw [List.map_cons, List.filterMap_cons, hn, ih es0 hr]

theorem buildEdgesAux_block (pkgs : List Package) :
    ∀ (l : List (Nat × Package)) (es : List (Nat × Nat)) (i : Nat)
    (p : Package),
    buildEdgesAux pkgs l = .ok es → (i, p) ∈ l →
    ∃ esi, depEdges pkgs i p.deps = .ok esi := by
  intro l
  induction l with
  | nil => intro es i p h hm; cases hm
  | cons ip rest ih =>
    intro es i p h hm
    unfold buildEdgesAux at h
    cases h1 : depEdges pkgs ip.1 ip.2.deps with
    | error e => rw [h1] at h; cases h
    | ok es1 =>
      rw [h1] at h
      cases h2 : buildEdgesAux pkgs rest with
      | error e => rw [h2] at h; cases h
      | ok es2 =>
        rcases List.mem_cons.mp hm with heq | hrest
        · refine ⟨es1, ?_⟩
          have h1a : ip.1 = i := by rw [← heq]
          have h2a : ip.2 = p := by rw [← heq]
          rw [h1a, h2a] at h1
          exact h1
        · exact ih es2 i p h2 hrest

theorem buildEdgesAux_filter (pkgs : List Package) :
    ∀ (l : List (Nat × Package)) (es : List (Nat × Nat)) (i : Nat)
    (p : Package) (dei : List (Nat × Nat)),
    buildEdgesAux pkgs l = .ok es → (l.map Prod.fst).Nodup →
    (i, p) ∈ l → depEdges pkgs i p.deps = .ok dei →
    es.filter (fun e => decide (e.1 = i)) = dei := by
  intro l
  induction l with
  | nil => intro es i p dei h hnd hm; cases hm
  | cons ip rest ih =>
    intro es i p dei h hnd hm hdep
    unfold buildEdgesAux at h
    cases h1 : depEdges pkgs ip.1 ip.2.deps with
    | error e => rw [h1] at h; cases h
    | ok es1 =>
      rw [h1] at h
      cases h2 : buildEdgesAux pkgs rest with
      | error e => rw [h2] at h; cases h
      | ok es2 =>
        rw [h2] at h
        simp only [Except.ok.injEq] at h
        subst h
        rw [List.filter_append]
        rcases List.mem_cons.mp hm with heq | hrest
        · have h1a : ip.1 = i := by rw [← heq]
          have h2a : ip.2 = p := by rw [← heq]
          rw [h1a, h2a] at h1
          rw [h1] at hdep
          have hdei : es1 = dei := by
            simpa using hdep
          subst hdei
          have hfil1 : es1.filter (fun e => decide (e.1 = i)) = es1 := by
            apply List.filter_eq_self.mpr
            intro e he
            have := depEdges_backward pkgs i p.deps es1 e h1 he
            simp [this.1]
          have hfil2 : es2.filter (fun e => decide (e.1 = i)) = [] := by
            apply List.filter_eq_nil_iff.mpr
            intro e he
            rcases buildEdgesAux_backward pkgs rest es2 e h2 he with ⟨q, hq, -⟩
            have hfst : e.1 ∈ rest.map Prod.fst :=
              List.mem_map.mpr ⟨(e.1, q), hq, rfl⟩
            have hni : i ∉ rest.map Prod.fst := by
              rw [List.map_cons, List.nodup_cons] at hnd
              rw [← h1a]
              exact hnd.1
            simp only [decide_eq_true_eq]
            intro hei
            exact hni (hei ▸ hfst)
          rw [hfil1, hfil2, List.append_nil]
        · have hfil1 : es1.filter (fun e => decide (e.1 = i)) = [] := by
            apply List.filter_eq_nil_iff.mpr
            intro e he
            have hsrc := (depEdges_backward pkgs ip.1 ip.2.deps es1 e h1 he).1
            have hfst : i ∈ rest.map Prod.fst :=
              List.mem_map.mpr ⟨(i, p), hrest, rfl⟩
            have hni : ip.1 ∉ rest.map Prod.fst := by
              rw [List.map_cons, List.nodup_cons] at hnd
              exact hnd.1
            simp only [decide_eq_true_eq]
            intro hei
            rw [hsrc] at hei
            exact hni (hei ▸ hfst)
          rw [hfil1, List.nil_append]
          refine ih es2 i p dei h2 ?_ hrest hdep
          rw [List.map_cons, List.nodup_cons] at hnd
          exact hnd.2

theorem filterMap_chain {deps : List String} {f : String → Option Nat}
    {g : Nat → Option Nat} {h : String → Option Nat}
    (hcomp : ∀ d ∈ deps, ∃ j, f d = some j ∧ h d = g j) :
    deps.filterMap h = (deps.filterMap f).filterMap g := by
  induction deps with
  | nil => rfl
  | cons d rest ih =>
    obtain ⟨j, hf, hh⟩ := hcomp d (by simp)
    have ihr := ih (fun d2 hd2 => hcomp d2 (List.mem_cons_of_mem _ hd2))
    rw [List.filterMap_cons, List.filterMap_cons, hf, List.filterMap_cons, hh]
    cases hgj : g j with
    | none => simp [ihr]
    | some v => simp [ihr]

/-- C7: `dependency_levels()` partitions the packages — every package name
appears exactly once across the levels; no dependency edge connects two
packages of one level; a package without deps sits at level 0; and a
package with deps sits exactly one above the maximal level of its direct
dependencies. -/
theorem dependency_levels_partition_and_formula
    (pkgs : List Package) (g : DependencyGraph)
    (hnew : DependencyGraph.new pkgs = .ok g)
    (hnodup : (pkgs.map Package.name).Nodup) :
    (∀ p ∈ pkgs, g.dependency_levels.flatten.count p.name = 1) ∧
    (∀ a ∈ pkgs, ∀ b ∈ pkgs, b.name ∈ a.deps →
      ∀ lv ∈ g.dependency_levels, ¬(a.name ∈ lv ∧ b.name ∈ lv)) ∧
    (∀ a ∈ pkgs, a.deps = [] → a.name ∈ g.dependency_levels.getD 0 []) ∧
    (∀ a ∈ pkgs, a.deps ≠ [] →
      levelIdx g.dependency_levels a.name =
        (listMax? (a.deps.filterMap (levelIdx g.dependency_levels))).map
          (fun m => m + 1)) := by
  unfold DependencyGraph.new at hnew
  cases hbe : buildEdges pkgs with
  | error e =>
    rw [hbe] at hnew
    exact absurd hnew (by simp)
  | ok edges =>
    simp only [hbe] at hnew
    cases hts : topoSortRev edges pkgs.length with
    | none =>
      simp only [hts] at hnew
      exact absurd hnew (by simp)
    | some order =>
      simp only [hts, Except.ok.injEq] at hnew
      subst hnew
      obtain ⟨hperm, hnodup_ord, hgood⟩ := topoSortRev_spec hts
      obtain ⟨lmap, inv⟩ :=
        computeLevels_spec edges order hnodup_ord hgood
      simp only [DependencyGraph.dependency_levels]
      set LIds := computeLevels edges order with hLIds
      set LN := LIds.map (fun lv => lv.map (idName pkgs)) with hLN
      have horder_lt : ∀ c ∈ order, c < pkgs.length := fun c hcm =>
        List.mem_range.mp ((hperm.mem_iff).mp hcm)
      have hflat_mem : ∀ x ∈ LIds.flatten, x ∈ order := fun x hx =>
        (inv.perm.mem_iff).mp hx
      have hlvl_mem_lt : ∀ k x, x ∈ LIds.getD k [] → x < pkgs.length := by
        intro k x hx
        have hkl : k < LIds.length := by
          by_contra hkl
          rw [List.getD_eq_default _ _ (by omega)] at hx
          cases hx
        have hgetD : LIds.getD k [] = LIds[k] := by
          rw [List.getD_eq_getElem?_getD, List.getElem?_eq_getElem hkl]
          rfl
        have hxf : x ∈ LIds.flatten :=
          List.mem_flatten.mpr ⟨LIds[k], List.getElem_mem hkl, hgetD ▸ hx⟩
        exact horder_lt x (hflat_mem x hxf)
      have hlook_of_ord : ∀ id, id ∈ order → ∃ l2,
          lookupLevel lmap id = some l2 := by
        intro id hid
        have hsome := (inv.keys id).mpr hid
        cases hl : lookupLevel lmap id with
        | none => rw [hl] at hsome; cases hsome
        | some l2 => exact ⟨l2, rfl⟩
      have hlvlIdxName : ∀ id l2, lookupLevel lmap id = some l2 →
          levelIdx LN (idName pkgs id) = some l2 := by
        intro id l2 hl
        have hmem2 : id ∈ LIds.getD l2 [] := (inv.mem l2 id).mpr hl
        have hl2len : l2 < LIds.length := by
          by_contra hc
          rw [List.getD_eq_default _ _ (by omega)] at hmem2
          cases hmem2
        have hid_lt : id < pkgs.length := hlvl_mem_lt _ _ hmem2
        apply levelIdx_eq_some
        · simpa [hLN] using hl2len
        · rw [hLN, getD_map_nil]
          exact List.mem_map.mpr ⟨id, hmem2, rfl⟩
        · intro j hj hmemj
          rw [hLN, getD_map_nil] at hmemj
          rcases List.mem_map.mp hmemj with ⟨y, hy, hyname⟩
          have hy_lt : y < pkgs.length := hlvl_mem_lt _ _ hy
          have hyx : y = id := idName_inj hnodup hy_lt hid_lt hyname
          subst hyx
          have hlj := (inv.mem j y).mp hy
          rw [hl] at hlj
          have : l2 = j := Option.some.inj hlj
          omega
      have part1 : ∀ p ∈ pkgs, (LN.flatten).count p.name = 1 := by
        intro p hp
        obtain ⟨ip, hip⟩ := List.mem_iff_getElem?.mp hp
        have hip_lt : ip < pkgs.length := (List.getElem?_eq_some_iff.mp hip).1
        have hipname : idName pkgs ip = p.name := idName_eq hip
        rw [hLN, ← List.map_flatten, ← hipname]
        rw [count_map_inj (fun a ha hfa =>
          idName_inj hnodup (horder_lt a (hflat_mem a ha)) hip_lt hfa)]
        rw [inv.perm.count_eq]
        exact List.count_eq_one_of_mem hnodup_ord
          ((hperm.mem_iff).mpr (List.mem_range.mpr hip_lt))
      have part2 : ∀ a ∈ pkgs, ∀ b ∈ pkgs, b.name ∈ a.deps →
          ∀ lv ∈ LN, ¬(a.name ∈ lv ∧ b.name ∈ lv) := by
        intro a ha b hb hdep lv hlv hab
        obtain ⟨halv, hblv⟩ := hab
        rcases List.mem_map.mp hlv with ⟨idlv, hidlv, hlveq⟩
        subst hlveq
        obtain ⟨ia, hia⟩ := List.mem_iff_getElem?.mp ha
        have hia_lt : ia < pkgs.length := (List.getElem?_eq_some_iff.mp hia).1
        have hianame : idName pkgs ia = a.name := idName_eq hia
        have hmema : (ia, a) ∈ pkgs.enum :=
          (List.mk_mem_enum_iff_getElem?).mpr hia
        obtain ⟨jb, hjb, hedge⟩ :=
          buildEdgesAux_forward pkgs pkgs.enum edges ia a b.name hbe hmema hdep
        obtain ⟨q, hq, hqname⟩ := nameToNode_sound hjb
        have hjb_lt : jb < pkgs.length := (List.getElem?_eq_some_iff.mp hq).1
        have hjbname : idName pkgs jb = b.name := by rw [idName_eq hq, hqname]
        obtain ⟨k, hk⟩ := List.mem_iff_getElem?.mp hidlv
        have hgetD : LIds.getD k [] = idlv := by
          rw [List.getD_eq_getElem?_getD, hk]
          rfl
        rcases List.mem_map.mp halv with ⟨y, hy, hyname⟩
        have hy2 : y ∈ LIds.getD k [] := hgetD ▸ hy
        have hy_lt : y < pkgs.length := hlvl_mem_lt k y hy2
        have hyia : y = ia := idName_inj hnodup hy_lt hia_lt
          (by rw [hyname, hianame])
        subst hyia
        rcases List.mem_map.mp hblv with ⟨z, hz, hzname⟩
        have hz2 : z ∈ LIds.getD k [] := hgetD ▸ hz
        have hz_lt : z < pkgs.length := hlvl_mem_lt k z hz2
        have hzjb : z = jb := idName_inj hnodup hz_lt hjb_lt
          (by rw [hzname, hjbname])
        subst hzjb
        have hlook_ia : lookupLevel lmap y = some k := (inv.mem k y).mp hy2
        have hlook_jb : lookupLevel lmap z = some k := (inv.mem k z).mp hz2
        have hnb : z ∈ outNeighbors edges y := mem_outNeighbors.mpr hedge
        have hspec := inv.speclvl y k hlook_ia
        have hne : (outNeighbors edges y).isEmpty = false := by
          cases houtn : outNeighbors edges y with
          | nil => rw [houtn] at hnb; cases hnb
          | cons c cs => rfl
        rw [hne] at hspec
        simp only [Bool.false_eq_true, if_false] at hspec
        have hkmem : k ∈ (outNeighbors edges y).filterMap (lookupLevel lmap) :=
          List.mem_filterMap.mpr ⟨z, hnb, hlook_jb⟩
        obtain ⟨m, hmax, hkm⟩ := listMax?_ge hkmem
        rw [hmax] at hspec
        have hspec2 : k = m + 1 := hspec
        omega
      have part3 : ∀ a ∈ pkgs, a.deps = [] → a.name ∈ LN.getD 0 [] := by
        intro a ha hdeps
        obtain ⟨ia, hia⟩ := List.mem_iff_getElem?.mp ha
        have hia_lt : ia < pkgs.length := (List.getElem?_eq_some_iff.mp hia).1
        have hout : outNeighbors edges ia = [] := by
          cases houtn : outNeighbors edges ia with
          | nil => rfl
          | cons c cs =>
            have hcmem : c ∈ outNeighbors edges ia := by rw [houtn]; simp
            have hedge := mem_outNeighbors.mp hcmem
            rcases buildEdgesAux_backward pkgs pkgs.enum edges (ia, c) hbe
              hedge with ⟨p2, hp2, d, hd, -⟩
            have hp2b : pkgs[ia]? = some p2 :=
              (List.mk_mem_enum_iff_getElem?).mp hp2
            rw [hia] at hp2b
            have hp2a : a = p2 := Option.some.inj hp2b
            rw [← hp2a, hdeps] at hd
            cases hd
        have hia_ord : ia ∈ order :=
          (hperm.mem_iff).mpr (List.mem_range.mpr hia_lt)
        obtain ⟨l2, hl2⟩ := hlook_of_ord ia hia_ord
        have hspec := inv.speclvl ia l2 hl2
        rw [hout] at hspec
        simp only [List.isEmpty_nil, if_true] at hspec
        subst hspec
        have hmem0 : ia ∈ LIds.getD 0 [] := (inv.mem 0 ia).mpr hl2
        rw [hLN, getD_map_nil]
        exact List.mem_map.mpr ⟨ia, hmem0, idName_eq hia⟩
      have part4 : ∀ a ∈ pkgs, a.deps ≠ [] →
          levelIdx LN a.name =
            (listMax? (a.deps.filterMap (levelIdx LN))).map
              (fun m => m + 1) := by
        intro a ha hdeps
        obtain ⟨ia, hia⟩ := List.mem_iff_getElem?.mp ha
        have hia_lt : ia < pkgs.length := (List.getElem?_eq_some_iff.mp hia).1
        have hmema : (ia, a) ∈ pkgs.enum :=
          (List.mk_mem_enum_iff_getElem?).mpr hia
        obtain ⟨dei, hdei⟩ :=
          buildEdgesAux_block pkgs pkgs.enum edges ia a hbe hmema
        have hfilter := buildEdgesAux_filter pkgs pkgs.enum edges ia a dei hbe
          (List.nodup_enum_map_fst pkgs) hmema hdei
        have htargets := depEdges_targets pkgs ia a.deps dei hdei
        have houtn : outNeighbors edges ia =
            (a.deps.filterMap (nameToNode pkgs)).reverse := by
          unfold outNeighbors
          rw [hfilter, htargets]
        have hia_ord : ia ∈ order :=
          (hperm.mem_iff).mpr (List.mem_range.mpr hia_lt)
        obtain ⟨la, hla⟩ := hlook_of_ord ia hia_ord
        have hlevela : levelIdx LN a.name = some la := by
          rw [← idName_eq hia]
          exact hlvlIdxName ia la hla
        have hdepfacts : ∀ d ∈ a.deps, ∃ jd, nameToNode pkgs d = some jd ∧
            levelIdx LN d = lookupLevel lmap jd := by
          intro d hd
          obtain ⟨jd, hjd, -⟩ :=
            depEdges_forward pkgs ia a.deps dei d hdei hd
          obtain ⟨qd, hqd, hqdn⟩ := nameToNode_sound hjd
          have hjd_lt : jd < pkgs.length :=
            (List.getElem?_eq_some_iff.mp hqd).1
          have hjd_ord : jd ∈ order :=
            (hperm.mem_iff).mpr (List.mem_range.mpr hjd_lt)
          obtain ⟨lj, hlj⟩ := hlook_of_ord jd hjd_ord
          refine ⟨jd, hjd, ?_⟩
          rw [hlj, ← hqdn, ← idName_eq hqd]
          exact hlvlIdxName jd lj hlj
        have hchain : a.deps.filterMap (levelIdx LN) =
            (a.deps.filterMap (nameToNode pkgs)).filterMap
              (lookupLevel lmap) :=
          filterMap_chain hdepfacts
        have hspec := inv.speclvl ia la hla
        obtain ⟨d0, hd0⟩ := List.exists_mem_of_ne_nil a.deps hdeps
        obtain ⟨jd0, hjd0, -⟩ := hdepfacts d0 hd0
        have hjd0dep : jd0 ∈ a.deps.filterMap (nameToNode pkgs) :=
          List.mem_filterMap.mpr ⟨d0, hd0, hjd0⟩
        have hjd0nb : jd0 ∈ outNeighbors edges ia := by
          rw [houtn, List.mem_reverse]
          exact hjd0dep
        have hne : (outNeighbors edges ia).isEmpty = false := by
          cases houtn2 : outNeighbors edges ia with
          | nil => rw [houtn2] at hjd0nb; cases hjd0nb
          | cons c cs => rfl
        rw [hne] at hspec
        simp only [Bool.false_eq_true, if_false] at hspec
        obtain ⟨q0, hq0, -⟩ := nameToNode_sound hjd0
        have hjd0_lt : jd0 < pkgs.length :=
          (List.getElem?_eq_some_iff.mp hq0).1
        have hjd0_ord : jd0 ∈ order :=
          (hperm.mem_iff).mpr (List.mem_range.mpr hjd0_lt)
        obtain ⟨v, hv⟩ := hlook_of_ord jd0 hjd0_ord
        have hvmem : v ∈ (outNeighbors edges ia).filterMap
            (lookupLevel lmap) :=
          List.mem_filterMap.mpr ⟨jd0, hjd0nb, hv⟩
        obtain ⟨m, hmax, -⟩ := listMax?_ge hvmem
        rw [hmax] at hspec
        have hspec2 : la = m + 1 := hspec
        have hmax2 : listMax? (a.deps.filterMap (levelIdx LN)) = some m := by
          rw [hchain]
          have hpermfm :
              ((a.deps.filterMap (nameToNode pkgs)).filterMap
                (lookupLevel lmap)).Perm
              ((outNeighbors edges ia).filterMap (lookupLevel lmap)) := by
            apply List.Perm.filterMap
            rw [houtn]
            exact (List.reverse_perm _).symm
          rw [listMax?_perm hpermfm, hmax]
        rw [hlevela, hmax2]
        simp [hspec2]
      exact ⟨part1, part2, part3, part4⟩

/-- C6 witness: the theorem applied to the three-package chain, with `b`
depending on `a`. -/
theorem topological_order_deps_before_dependents_witness :
    idxOf (DependencyGraph.topological_order c10Graph) "a" <
      idxOf (DependencyGraph.topological_order c10Graph) "b" :=
  topological_order_deps_before_dependents c10Pkgs c10Graph (by decide)
    (by decide) ⟨"b", .js, true, "b", ["a"], [], none⟩ (by decide)
    ⟨"a", .js, true, "a", [], [], none⟩ (by decide) (by decide)

/-- C7 witness: the theorem applied to the three-package chain. -/
theorem dependency_levels_partition_and_formula_witness :
    (∀ p ∈ c10Pkgs,
      (DependencyGraph.dependency_levels c10Graph).flatten.count p.name = 1) ∧
    (∀ a ∈ c10Pkgs, ∀ b ∈ c10Pkgs, b.name ∈ a.deps →
      ∀ lv ∈ DependencyGraph.dependency_levels c10Graph,
        ¬(a.name ∈ lv ∧ b.name ∈ lv)) ∧
    (∀ a ∈ c10Pkgs, a.deps = [] →
      a.name ∈ (DependencyGraph.dependency_levels c10Graph).getD 0 []) ∧
    (∀ a ∈ c10Pkgs, a.deps ≠ [] →
      levelIdx (DependencyGraph.dependency_levels c10Graph) a.name =
        (listMax? (a.deps.filterMap
          (levelIdx (DependencyGraph.dependency_levels c10Graph)))).map
          (fun m => m + 1)) :=
  dependency_levels_partition_and_formula c10Pkgs c10Graph (by decide)
    (by decide)
theorem scanEntries_outputs (output_files : List (RelPath × List Nat)) :
    ∀ (m : Option ArtifactMetadata) (mf : Option ArtifactManifest),
    scanEntries (output_files.map
      (fun pc => (⟨"outputs" :: pc.1, .raw pc.2⟩ : TarEntry))) m mf =
      .ok (m, mf) := by
  induction output_files with
  | nil => intro m mf; rfl
  | cons pc rest ih =>
    intro m mf
    rw [List.map_cons]
    unfold scanEntries
    rw [if_neg (by simp), if_neg (by simp)]
    exact ih m mf

theorem extract_fold (dest : RelPath) :
    ∀ (l : List (RelPath × List Nat)) (acc : List (RelPath × EntryContent)),
    (l.map (fun pc => (⟨"outputs" :: pc.1, .raw pc.2⟩ : TarEntry))).foldl
      (fun acc e =>
        if e.path = ["metadata.json"] ∨ e.path = ["manifest.json"] then acc
        else
          match e.path with
          | "outputs" :: rest => acc ++ [(dest ++ rest, e.content)]
          | _ => acc) acc =
      acc ++ l.map (fun pc => (dest ++ pc.1, EntryContent.raw pc.2)) := by
  intro l
  induction l with
  | nil => intro acc; simp
  | cons pc rest ih =>
    intro acc
    rw [List.map_cons, List.foldl_cons]
    rw [if_neg (by simp)]
    rw [ih]
    simp

/-- C8: an artifact built by `Artifact::new` re-parses from its compressed
bytes with equal metadata and manifest, and `extract_outputs(dest)` writes
exactly the original file tree under `dest` — each relative path with its
original bytes, and nothing else. -/
theorem artifact_roundtrip (pn tn cmd ckh : String)
    (output_files : List (RelPath × List Nat)) (created_at : Nat)
    (dest : RelPath) :
    ∃ a2, Artifact.from_compressed
        (Artifact.new pn tn cmd ckh output_files created_at).compressed_data =
        .ok a2 ∧
      a2.metadata =
        (Artifact.new pn tn cmd ckh output_files created_at).metadata ∧
      a2.manifest =
        (Artifact.new pn tn cmd ckh output_files created_at).manifest ∧
      a2.extract_outputs dest =
        output_files.map (fun pc => (dest ++ pc.1, EntryContent.raw pc.2)) := by
  refine ⟨Artifact.new pn tn cmd ckh output_files created_at, ?_, rfl, rfl, ?_⟩
  · unfold Artifact.from_compressed
    have hscan : scanEntries
        (Artifact.new pn tn cmd ckh output_files created_at).compressed_data
        none none =
        .ok (some (Artifact.new pn tn cmd ckh output_files created_at).metadata,
          some (Artifact.new pn tn cmd ckh output_files created_at).manifest) :=
      scanEntries_outputs output_files _ _
    rw [hscan]
  · show (Artifact.new pn tn cmd ckh output_files created_at).compressed_data.foldl
      _ [] = _
    exact extract_fold dest output_files []

/-- C9 counterexample: a PUT whose body is a valid artifact with a
mismatching internal key, sent to a well-formed-but-short URL key (`ff` is
hex but shorter than 32), is answered with 400, not 422, so the claim does
not hold for every such request. -/
theorem upload_mismatch_bad_key_counterexample :
    (∃ a, Artifact.from_compressed c9Body = .ok a ∧
      a.metadata.cache_key_hash ≠ "ff") ∧
    allHex "ff" = true ∧
    upload_artifact c9State "ff" c9Body = (.badRequest400, c9State) ∧
    HttpStatus.badRequest400 ≠ HttpStatus.unprocessable422 := by
  refine ⟨⟨c9Artifact, by decide, by decide⟩, by decide, by decide, by decide⟩

/-- C9 (amended): for every PUT whose URL key is hex of length at least 32
and whose body is within the size limit and parses as a valid artifact, a
mismatch between the artifact's internal `cache_key_hash` and the URL key
is answered with status 422 and the store is left unchanged. -/
theorem upload_rejects_mismatched_key (st : ServerState) (cache_key : String)
    (body : CompressedData) (a : Artifact)
    (hkey : allHex cache_key = true ∧ cache_key.length ≥ 32)
    (hsize : (encodeTar body).length ≤ st.max_artifact_size)
    (hparse : Artifact.from_compressed body = .ok a)
    (hmismatch : a.metadata.cache_key_hash ≠ cache_key) :
    upload_artifact st cache_key body = (.unprocessable422, st) := by
  unfold upload_artifact
  rw [if_neg (not_not_intro hkey)]
  rw [if_neg (Nat.not_lt.mpr hsize)]
  have hv : ∃ e, Verifier.verify_upload st.max_artifact_size body cache_key =
      .error e := by
    unfold Verifier.verify_upload
    rw [if_neg (Nat.not_lt.mpr hsize)]
    simp only [hparse]
    cases hver : ArtifactVerifier.verify a
        (some (sha256hex (encodeTar body))) with
    | error e => exact ⟨e, rfl⟩
    | ok u =>
      rw [if_pos hmismatch]
      exact ⟨_, rfl⟩
  obtain ⟨e, he⟩ := hv
  rw [he]

set_option maxRecDepth 1000000 in
/-- C9 witness: the amended theorem applied to the small valid artifact
uploaded under a mismatching 32-hex-digit key. -/
theorem upload_rejects_mismatched_key_witness :
    upload_artifact c9State "ffffffffffffffffffffffffffffffff" c9Body =
      (.unprocessable422, c9State) :=
  upload_rejects_mismatched_key c9State "ffffffffffffffffffffffffffffffff"
    c9Body c9Artifact (by decide) (by decide) (by decide) (by decide)

end Polykit
